import Mathlib

/-!
Verification of the robust-shortest-path model of this repository.

The notebook `RSP.ipynb` generates a 20-node directed graph given by two
integer matrices `l` (lower bounds) and `u` (upper bounds), with the sentinel
`M = 10000` encoding "no arc", and builds a mixed-integer program over
binary arc-selection variables `Y[i,j]` and continuous distance variables
`X[j]`:

* objective: minimize `sum u[i][j]*Y[i,j] - X[t]`;
* constraints: `X[s] == 0`,
  `X[j] <= X[i] + l[i][j] + (u[i][j]-l[i][j])*Y[i,j]` for every ordered pair,
  and flow conservation of `Y` (`+1` at `s`, `-1` at `t`, `0` elsewhere);
* `X` variables carry the docplex default lower bound `0`.

Continuous variables are embedded as rationals (all model data is integral,
so linear-programming optima are rational and every order-theoretic argument
is unchanged).  Binary variables are embedded as `Bool`.
-/

namespace RSP

/-- Numeric 0/1 value of a binary variable. -/
def bval (b : Bool) : ℚ := if b then 1 else 0

lemma bval_nonneg (b : Bool) : 0 ≤ bval b := by
  cases b <;> simp [bval]

section Model

variable {n : ℕ}

/-- Continuous-variable constraints of the model, from `RSP.ipynb`:
`m.add_constraint(X[s] == 0)`,
`m.add_constraints(X[j] <= X[i]+l[i][j]+(u[i][j]-l[i][j])*Y[i,j] ...)`,
plus the docplex default lower bound `0` of `continuous_var_dict`. -/
def XFeas (l u : Fin n → Fin n → ℚ) (s : Fin n) (Y : Fin n → Fin n → Bool)
    (x : Fin n → ℚ) : Prop :=
  x s = 0 ∧ (∀ j, 0 ≤ x j) ∧
    ∀ i j, x j ≤ x i + l i j + (u i j - l i j) * bval (Y i j)

/-- Net flux of the binary arc variables at node `j`, as written in the code:
`m.sum(Y[j,k] for k in range(N)) - m.sum(Y[i,j] for i in range(N))`. -/
def netFlux (Y : Fin n → Fin n → Bool) (j : Fin n) : ℚ :=
  (∑ k, bval (Y j k)) - ∑ i, bval (Y i j)

/-- Flow-conservation constraints of the model, from `RSP.ipynb`:
flux `+1` at the source, `-1` at the target, `0` at the other nodes. -/
def YFeas (s t : Fin n) (Y : Fin n → Fin n → Bool) : Prop :=
  netFlux Y s = 1 ∧ netFlux Y t = -1 ∧
    ∀ j, j ≠ s → j ≠ t → netFlux Y j = 0

/-- Objective of the model, from `RSP.ipynb`:
`m.minimize(m.sum(u[i][j]*Y[i,j] ...) - X[t])`. -/
def objective (u : Fin n → Fin n → ℚ) (t : Fin n) (Y : Fin n → Fin n → Bool)
    (x : Fin n → ℚ) : ℚ :=
  (∑ i, ∑ j, u i j * bval (Y i j)) - x t

/-- Joint feasibility of a binary/continuous assignment for the model. -/
def modelFeasible (l u : Fin n → Fin n → ℚ) (s t : Fin n)
    (Y : Fin n → Fin n → Bool) (x : Fin n → ℚ) : Prop :=
  YFeas s t Y ∧ XFeas l u s Y x

/-- The set of objective values attained by feasible assignments. -/
def objValues (l u : Fin n → Fin n → ℚ) (s t : Fin n) : Set ℚ :=
  {v | ∃ Y x, modelFeasible l u s t Y x ∧ objective u t Y x = v}

/-- Optimality of the continuous variables for a fixed scenario `Y`
(the Benders subproblem): feasible, and no feasible vector reaches a larger
value at `t` (equivalently, a smaller model objective with `Y` fixed). -/
def XOpt (l u : Fin n → Fin n → ℚ) (s t : Fin n) (Y : Fin n → Fin n → Bool)
    (x : Fin n → ℚ) : Prop :=
  XFeas l u s Y x ∧ ∀ x', XFeas l u s Y x' → x' t ≤ x t

end Model

/-! ### Integer-level data and decidable checkers

The notebook's matrices are integer valued; the following integer-level
functions let concrete instances be checked by `decide` and are related to
the rational-valued model by cast lemmas. -/

section Checkers

variable {n : ℕ}

/-- Rational matrix obtained from an integer matrix. -/
def matQ (a : Fin n → Fin n → ℤ) : Fin n → Fin n → ℚ :=
  fun i j => ((a i j : ℤ) : ℚ)

/-- Effective integer arc cost of a scenario: `u[i][j]` on selected arcs,
`l[i][j]` elsewhere; this is the value of
`l[i][j] + (u[i][j]-l[i][j])*Y[i,j]` for a 0/1 variable. -/
def effInt (lz uz : Fin n → Fin n → ℤ) (Y : Fin n → Fin n → Bool)
    (i j : Fin n) : ℤ :=
  if Y i j then uz i j else lz i j

lemma effInt_cast (lz uz : Fin n → Fin n → ℤ) (Y : Fin n → Fin n → Bool)
    (i j : Fin n) :
    ((effInt lz uz Y i j : ℤ) : ℚ) =
      matQ lz i j + (matQ uz i j - matQ lz i j) * bval (Y i j) := by
  by_cases h : Y i j <;> simp [effInt, matQ, bval, h]

/-- Decidable feasibility check for an integer-valued continuous assignment. -/
def XFeasCheck (lz uz : Fin n → Fin n → ℤ) (s : Fin n)
    (Y : Fin n → Fin n → Bool) (xz : Fin n → ℤ) : Prop :=
  xz s = 0 ∧ (∀ j, 0 ≤ xz j) ∧ ∀ i j, xz j ≤ xz i + effInt lz uz Y i j

instance (lz uz : Fin n → Fin n → ℤ) (s : Fin n) (Y : Fin n → Fin n → Bool)
    (xz : Fin n → ℤ) : Decidable (XFeasCheck lz uz s Y xz) := by
  unfold XFeasCheck; infer_instance

lemma XFeas_of_check {lz uz : Fin n → Fin n → ℤ} {s : Fin n}
    {Y : Fin n → Fin n → Bool} {xz : Fin n → ℤ}
    (h : XFeasCheck lz uz s Y xz) :
    XFeas (matQ lz) (matQ uz) s Y (fun j => ((xz j : ℤ) : ℚ)) := by
  obtain ⟨h0, hnn, hc⟩ := h
  refine ⟨by simp [h0], fun j => by simpa using (Int.cast_nonneg.mpr (hnn j) : (0:ℚ) ≤ _), fun i j => ?_⟩
  have := hc i j
  have hcast : ((xz j : ℤ) : ℚ) ≤ ((xz i + effInt lz uz Y i j : ℤ) : ℚ) := by
    exact_mod_cast this
  rw [Int.cast_add, effInt_cast] at hcast
  linarith [hcast]

/-- Integer net flux (for decidable checking of the flow constraints). -/
def netFluxZ (Y : Fin n → Fin n → Bool) (j : Fin n) : ℤ :=
  (∑ k, (if Y j k then (1 : ℤ) else 0)) - ∑ i, (if Y i j then (1 : ℤ) else 0)

lemma netFlux_eq_cast (Y : Fin n → Fin n → Bool) (j : Fin n) :
    netFlux Y j = ((netFluxZ Y j : ℤ) : ℚ) := by
  unfold netFlux netFluxZ
  push_cast
  rfl

/-- Decidable flow-conservation check. -/
def YFeasCheck (s t : Fin n) (Y : Fin n → Fin n → Bool) : Prop :=
  netFluxZ Y s = 1 ∧ netFluxZ Y t = -1 ∧
    ∀ j, j ≠ s → j ≠ t → netFluxZ Y j = 0

instance (s t : Fin n) (Y : Fin n → Fin n → Bool) :
    Decidable (YFeasCheck s t Y) := by
  unfold YFeasCheck; infer_instance

lemma YFeas_of_check {s t : Fin n} {Y : Fin n → Fin n → Bool}
    (h : YFeasCheck s t Y) : YFeas s t Y := by
  obtain ⟨hs, ht, ho⟩ := h
  refine ⟨?_, ?_, fun j hjs hjt => ?_⟩
  · rw [netFlux_eq_cast, hs]; norm_num
  · rw [netFlux_eq_cast, ht]; norm_num
  · rw [netFlux_eq_cast, ho j hjs hjt]; norm_num

end Checkers

/-! ### The generated 20-node instance

The notebook generates the graph with `np.random.seed(1234)` and prints the
resulting matrices; the definitions below transcribe that printed output
(`N = 20`, sentinel `M = 10000`, source `s = 0`, target `t = 4`). -/

def lRows : List (List ℤ) := [
  [10000, 10000, 10000, 10000, 10000, 2, 10000, 10000, 10000, 10000, 10000, 10000, 10000, 10000, 1, 10000, 10000, 7, 10000, 10000],
  [10000, 10000, 10000, 10000, 10000, 10000, 4, 10000, 10000, 8, 10000, 10000, 10000, 10000, 10000, 10000, 10000, 10000, 10000, 10000],
  [10000, 10000, 10000, 10000, 10000, 2, 10000, 10000, 10000, 10000, 10000, 10000, 5, 10000, 10000, 7, 10000, 10000, 10000, 10000],
  [10000, 10000, 8, 10000, 10000, 10000, 10000, 10000, 10000, 10000, 10000, 2, 10000, 10000, 10000, 10000, 10000, 10000, 10000, 10000],
  [10000, 10000, 10000, 10000, 10000, 10000, 4, 10000, 10000, 10000, 10000, 10000, 10000, 10000, 9, 10000, 10000, 10000, 10000, 10000],
  [3, 10000, 10000, 10000, 10000, 10000, 10000, 10000, 10000, 10000, 10000, 10000, 10000, 10000, 10000, 10000, 10000, 10000, 5, 10000],
  [10000, 10000, 10000, 10000, 2, 10000, 10000, 4, 10000, 10000, 10000, 10000, 10000, 10000, 10000, 10000, 10000, 10000, 10000, 10000],
  [10000, 7, 10000, 10000, 10000, 10000, 2, 10000, 10000, 10000, 10000, 10000, 10000, 10000, 10000, 10000, 10000, 10000, 10000, 10000],
  [10000, 10000, 10000, 2, 5, 10000, 10000, 10000, 10000, 10000, 10000, 4, 10000, 10000, 10000, 3, 10000, 10000, 10000, 10000],
  [10000, 8, 10000, 10000, 10000, 10000, 10000, 10000, 10000, 0, 2, 10000, 10000, 10000, 10000, 10000, 10000, 10000, 10000, 10000],
  [10000, 10000, 10000, 10000, 10000, 10000, 10000, 10000, 1, 10000, 10000, 10000, 10000, 10000, 10000, 10000, 10000, 10000, 10000, 10000],
  [10000, 7, 10000, 10000, 10000, 10000, 10000, 10000, 10000, 1, 10000, 10000, 5, 10000, 10000, 10000, 10000, 8, 10000, 10000],
  [10000, 10000, 10000, 10000, 10000, 2, 10000, 10000, 10000, 10000, 10000, 2, 10000, 10000, 10000, 10000, 10000, 4, 6, 5],
  [10000, 10000, 10000, 10000, 10000, 10000, 10000, 10000, 10000, 10000, 10000, 10000, 10000, 10000, 10000, 4, 10000, 10000, 10000, 10000],
  [2, 10000, 10000, 10000, 10000, 10000, 10000, 10000, 10000, 10000, 10000, 2, 10000, 10000, 10000, 10000, 3, 10000, 10000, 10000],
  [10000, 10000, 10000, 10000, 10000, 10000, 10000, 10000, 10000, 10000, 10000, 10000, 10000, 10000, 10000, 0, 10000, 10000, 10000, 10000],
  [10000, 10000, 10000, 10000, 10000, 9, 10000, 10000, 10000, 10000, 10000, 6, 10000, 10000, 10000, 10000, 10000, 10000, 10000, 2],
  [10000, 10000, 3, 10000, 10000, 10000, 10000, 10000, 8, 10000, 10000, 10000, 10000, 10000, 10000, 10000, 10000, 0, 10000, 9],
  [10000, 10000, 10000, 10000, 10000, 10000, 10000, 10000, 10000, 10000, 10000, 10000, 10000, 10000, 10000, 10000, 10000, 10000, 10000, 10000],
  [10000, 10000, 10000, 10000, 4, 10000, 10000, 10000, 4, 10000, 10000, 10000, 5, 10000, 10000, 10000, 10000, 10000, 10000, 0]
]

def uRows : List (List ℤ) := [
  [10000, 10000, 10000, 10000, 10000, 27, 10000, 10000, 10000, 10000, 10000, 10000, 10000, 10000, 20, 10000, 10000, 21, 10000, 10000],
  [10000, 10000, 10000, 10000, 10000, 10000, 26, 10000, 10000, 21, 10000, 10000, 10000, 10000, 10000, 10000, 10000, 10000, 10000, 10000],
  [10000, 10000, 10000, 10000, 10000, 29, 10000, 10000, 10000, 10000, 10000, 10000, 25, 10000, 10000, 25, 10000, 10000, 10000, 10000],
  [10000, 10000, 27, 10000, 10000, 10000, 10000, 10000, 10000, 10000, 10000, 21, 10000, 10000, 10000, 10000, 10000, 10000, 10000, 10000],
  [10000, 10000, 10000, 10000, 10000, 10000, 25, 10000, 10000, 10000, 10000, 10000, 10000, 10000, 29, 10000, 10000, 10000, 10000, 10000],
  [24, 10000, 10000, 10000, 10000, 10000, 10000, 10000, 10000, 10000, 10000, 10000, 10000, 10000, 10000, 10000, 10000, 10000, 27, 10000],
  [10000, 10000, 10000, 10000, 25, 10000, 10000, 26, 10000, 10000, 10000, 10000, 10000, 10000, 10000, 10000, 10000, 10000, 10000, 10000],
  [10000, 25, 10000, 10000, 10000, 10000, 22, 10000, 10000, 10000, 10000, 10000, 10000, 10000, 10000, 10000, 10000, 10000, 10000, 10000],
  [10000, 10000, 10000, 22, 26, 10000, 10000, 10000, 10000, 10000, 10000, 25, 10000, 10000, 10000, 25, 10000, 10000, 10000, 10000],
  [10000, 23, 10000, 10000, 10000, 10000, 10000, 10000, 10000, 0, 24, 10000, 10000, 10000, 10000, 10000, 10000, 10000, 10000, 10000],
  [10000, 10000, 10000, 10000, 10000, 10000, 10000, 10000, 25, 10000, 10000, 10000, 10000, 10000, 10000, 10000, 10000, 10000, 10000, 10000],
  [10000, 26, 10000, 10000, 10000, 10000, 10000, 10000, 10000, 21, 10000, 10000, 28, 10000, 10000, 10000, 10000, 29, 10000, 10000],
  [10000, 10000, 10000, 10000, 10000, 25, 10000, 10000, 10000, 10000, 10000, 20, 10000, 10000, 10000, 10000, 10000, 28, 28, 20],
  [10000, 10000, 10000, 10000, 10000, 10000, 10000, 10000, 10000, 10000, 10000, 10000, 10000, 10000, 10000, 26, 10000, 10000, 10000, 10000],
  [28, 10000, 10000, 10000, 10000, 10000, 10000, 10000, 10000, 10000, 10000, 22, 10000, 10000, 10000, 10000, 22, 10000, 10000, 10000],
  [10000, 10000, 10000, 10000, 10000, 10000, 10000, 10000, 10000, 10000, 10000, 10000, 10000, 10000, 10000, 0, 10000, 10000, 10000, 10000],
  [10000, 10000, 10000, 10000, 10000, 24, 10000, 10000, 10000, 10000, 10000, 23, 10000, 10000, 10000, 10000, 10000, 10000, 10000, 24],
  [10000, 10000, 23, 10000, 10000, 10000, 10000, 10000, 22, 10000, 10000, 10000, 10000, 10000, 10000, 10000, 10000, 0, 10000, 24],
  [10000, 10000, 10000, 10000, 10000, 10000, 10000, 10000, 10000, 10000, 10000, 10000, 10000, 10000, 10000, 10000, 10000, 10000, 10000, 10000],
  [10000, 10000, 10000, 10000, 20, 10000, 10000, 10000, 24, 10000, 10000, 10000, 27, 10000, 10000, 10000, 10000, 10000, 10000, 0]
]

def xstarRow : List ℤ := [0, 10, 14, 9, 12, 2, 14, 18, 7, 4, 6, 3, 8, 10000, 1, 10, 4, 11, 7, 6]

/-- Lower-bound matrix `l` of the generated instance. -/
def l : Fin 20 → Fin 20 → ℤ := fun i j => (lRows.getD i.1 []).getD j.1 0

/-- Upper-bound matrix `u` of the generated instance. -/
def u : Fin 20 → Fin 20 → ℤ := fun i j => (uRows.getD i.1 []).getD j.1 0

/-- Source node of the instance (`s = 0`). -/
def s : Fin 20 := 0

/-- Target node of the instance (`t = 4`). -/
def t : Fin 20 := 4

/-- Rational view of the lower-bound matrix. -/
def lQ : Fin 20 → Fin 20 → ℚ := matQ l

/-- Rational view of the upper-bound matrix. -/
def uQ : Fin 20 → Fin 20 → ℚ := matQ u

lemma l_nonneg : ∀ i j, 0 ≤ l i j := by decide
lemma l_le_u : ∀ i j, l i j ≤ u i j := by decide
lemma u_le_M : ∀ i j, u i j ≤ 10000 := by decide
lemma sentinel_u (i j : Fin 20) (h : l i j = 10000) : u i j = 10000 := by
  revert i j h; decide


/-! ### Reference shortest-path algorithm

Modelled from the spec: the Subproblem Solver must "compute the exact vector
of shortest distances x[0..N-1] from s under effective arc cost
c_ij = upper_ij if Y[i][j]=1 else lower_ij", checked against "an independent
reference shortest-path algorithm"; with possibly mixed costs the spec
prescribes "a Bellman-Ford-style relaxation".  `bf c s T k` performs `k`
rounds of Bellman-Ford relaxation from source `s` over the complete arc-cost
matrix `c`, starting from `0` at `s` and the cap `T` elsewhere (the model's
constraint graph is complete, every pair having a finite - possibly
sentinel - cost, so a finite cap plays the role of the usual infinity). -/

section BellmanFord

variable {n : ℕ}

/-- One value of the Bellman-Ford relaxation: after `k+1` rounds the
distance label of `j` is the minimum of its previous label and of
`label i + c i j` over all `i`. -/
def bf (c : Fin n → Fin n → ℤ) (s : Fin n) (T : ℤ) : ℕ → Fin n → ℤ
  | 0, j => if j = s then 0 else T
  | k + 1, j =>
      (List.finRange n).foldr (fun i acc => min (bf c s T k i + c i j) acc)
        (bf c s T k j)

lemma le_foldr_min {α : Type*} [LinearOrder α] {β : Type*} (f : β → α)
    (a : α) : ∀ (L : List β) (init : α), a ≤ init → (∀ i ∈ L, a ≤ f i) →
      a ≤ L.foldr (fun i acc => min (f i) acc) init
  | [], init, h, _ => h
  | b :: L, init, h, hL => by
      simp only [List.foldr_cons, le_min_iff]
      exact ⟨hL b (by simp), le_foldr_min f a L init h
        fun i hi => hL i (by simp [hi])⟩

lemma foldr_min_le_init {α : Type*} [LinearOrder α] {β : Type*} (f : β → α) :
    ∀ (L : List β) (init : α),
      L.foldr (fun i acc => min (f i) acc) init ≤ init
  | [], _ => le_rfl
  | b :: L, init => by
      simp only [List.foldr_cons]
      exact le_trans (min_le_right _ _) (foldr_min_le_init f L init)

lemma foldr_min_le_of_mem {α : Type*} [LinearOrder α] {β : Type*} (f : β → α) :
    ∀ (L : List β) (init : α) (b : β), b ∈ L →
      L.foldr (fun i acc => min (f i) acc) init ≤ f b
  | [], _, b, hb => by simp at hb
  | a :: L, init, b, hb => by
      rcases List.mem_cons.mp hb with h | h
      · simp [List.foldr_cons, h, min_le_left]
      · simp only [List.foldr_cons]
        exact le_trans (min_le_right _ _) (foldr_min_le_of_mem f L init b h)

lemma bf_succ_le_self (c : Fin n → Fin n → ℤ) (s : Fin n) (T : ℤ) (k : ℕ)
    (j : Fin n) : bf c s T (k + 1) j ≤ bf c s T k j :=
  foldr_min_le_init _ _ _

lemma bf_succ_le_step (c : Fin n → Fin n → ℤ) (s : Fin n) (T : ℤ) (k : ℕ)
    (i j : Fin n) : bf c s T (k + 1) j ≤ bf c s T k i + c i j :=
  foldr_min_le_of_mem _ _ _ i (List.mem_finRange i)

lemma bf_nonneg (c : Fin n → Fin n → ℤ) (s : Fin n) (T : ℤ)
    (hc : ∀ i j, 0 ≤ c i j) (hT : 0 ≤ T) :
    ∀ k j, 0 ≤ bf c s T k j
  | 0, j => by by_cases h : j = s <;> simp [bf, h, hT]
  | k + 1, j => by
      unfold bf
      exact le_foldr_min _ _ _ _ (bf_nonneg c s T hc hT k j)
        fun i _ => add_nonneg (bf_nonneg c s T hc hT k i) (hc i j)

lemma bf_source_eq_zero (c : Fin n → Fin n → ℤ) (s : Fin n) (T : ℤ)
    (hc : ∀ i j, 0 ≤ c i j) (hT : 0 ≤ T) (k : ℕ) :
    bf c s T k s = 0 := by
  induction k with
  | zero => simp [bf]
  | succ k ih =>
      refine le_antisymm (le_trans (bf_succ_le_self c s T k s) (le_of_eq ih))
        (bf_nonneg c s T hc hT _ _)

/-- Any model-feasible continuous assignment is dominated by every round of
the Bellman-Ford labels for its scenario (the distance constraints relax
exactly as Bellman-Ford does). -/
lemma XFeas_le_bf {lz uz : Fin n → Fin n → ℤ} {s : Fin n}
    {Y : Fin n → Fin n → Bool} {x : Fin n → ℚ}
    (hx : XFeas (matQ lz) (matQ uz) s Y x) {T : ℤ}
    (hT : ∀ j, effInt lz uz Y s j ≤ T) :
    ∀ k j, x j ≤ ((bf (effInt lz uz Y) s T k j : ℤ) : ℚ) := by
  obtain ⟨h0, _, hc⟩ := hx
  have harc : ∀ i j, x j ≤ x i + ((effInt lz uz Y i j : ℤ) : ℚ) := by
    intro i j
    calc x j ≤ x i + matQ lz i j + (matQ uz i j - matQ lz i j) * bval (Y i j) :=
          hc i j
      _ = x i + ((effInt lz uz Y i j : ℤ) : ℚ) := by rw [effInt_cast]; ring
  intro k
  induction k with
  | zero =>
      intro j
      by_cases h : j = s
      · simp [bf, h, h0]
      · simp only [bf, if_neg h]
        calc x j ≤ x s + ((effInt lz uz Y s j : ℤ) : ℚ) := harc s j
          _ = ((effInt lz uz Y s j : ℤ) : ℚ) := by rw [h0]; ring
          _ ≤ ((T : ℤ) : ℚ) := by exact_mod_cast hT j
  | succ k ih =>
      intro j
      show x j ≤ ((bf (effInt lz uz Y) s T (k + 1) j : ℤ) : ℚ)
      unfold bf
      have : ∀ (L : List (Fin n)) (init : ℤ), x j ≤ ((init : ℤ) : ℚ) →
          (∀ i ∈ L, x j ≤ ((bf (effInt lz uz Y) s T k i + effInt lz uz Y i j : ℤ) : ℚ)) →
          x j ≤ ((L.foldr
              (fun i acc => min (bf (effInt lz uz Y) s T k i + effInt lz uz Y i j) acc)
              init : ℤ) : ℚ) := by
        intro L
        induction L with
        | nil => intro init h _; exact h
        | cons b L ihL =>
            intro init h hL
            simp only [List.foldr_cons]
            rw [Int.cast_min]
            exact le_min (hL b (by simp))
              (ihL init h fun i hi => hL i (by simp [hi]))
      refine this _ _ (ih j) fun i _ => ?_
      calc x j ≤ x i + ((effInt lz uz Y i j : ℤ) : ℚ) := harc i j
        _ ≤ ((bf (effInt lz uz Y) s T k i : ℤ) : ℚ) +
              ((effInt lz uz Y i j : ℤ) : ℚ) := by
            have := ih i; linarith
        _ = ((bf (effInt lz uz Y) s T k i + effInt lz uz Y i j : ℤ) : ℚ) := by
            push_cast; ring

/-- If one more relaxation round leaves the Bellman-Ford labels unchanged,
they form a feasible continuous assignment (hence the optimal one at `t`,
by the previous lemma). -/
lemma bf_fix_XFeas {lz uz : Fin n → Fin n → ℤ} {s : Fin n}
    {Y : Fin n → Fin n → Bool} {T : ℤ} {K : ℕ}
    (hc : ∀ i j, 0 ≤ effInt lz uz Y i j) (hT : 0 ≤ T)
    (hfix : ∀ j, bf (effInt lz uz Y) s T (K + 1) j = bf (effInt lz uz Y) s T K j) :
    XFeas (matQ lz) (matQ uz) s Y
      (fun j => ((bf (effInt lz uz Y) s T K j : ℤ) : ℚ)) := by
  refine ⟨?_, ?_, ?_⟩
  · simp [bf_source_eq_zero _ s T hc hT K]
  · intro j
    simpa using (Int.cast_nonneg.mpr (bf_nonneg _ s T hc hT K j) : (0:ℚ) ≤ _)
  · intro i j
    have h1 : bf (effInt lz uz Y) s T K j ≤
        bf (effInt lz uz Y) s T K i + effInt lz uz Y i j := by
      rw [← hfix j]; exact bf_succ_le_step _ s T K i j
    have h2 : ((bf (effInt lz uz Y) s T K j : ℤ) : ℚ) ≤
        ((bf (effInt lz uz Y) s T K i + effInt lz uz Y i j : ℤ) : ℚ) := by
      exact_mod_cast h1
    rw [Int.cast_add, effInt_cast] at h2
    linarith

end BellmanFord

/-! ### Walks, their costs, and simple-path extraction -/

section Walks

/-- Ordered list of consecutive pairs (the arcs) of a walk. -/
def arcs {α : Type*} (L : List α) : List (α × α) := L.zip L.tail

lemma arcs_cons_cons {α : Type*} (a b : α) (L : List α) :
    arcs (a :: b :: L) = (a, b) :: arcs (b :: L) := rfl

lemma mem_arcs_fst {α : Type*} :
    ∀ {L : List α} {p : α × α}, p ∈ arcs L → p.1 ∈ L
  | [], p, h => by simp [arcs] at h
  | [_], p, h => by simp [arcs] at h
  | a :: b :: L, p, h => by
      rw [arcs_cons_cons] at h
      rcases List.mem_cons.mp h with h | h
      · simp [h]
      · exact List.mem_cons_of_mem a (mem_arcs_fst h)

lemma arcs_nodup {α : Type*} :
    ∀ {L : List α}, L.Nodup → (arcs L).Nodup
  | [], _ => by simp [arcs]
  | [_], _ => by simp [arcs]
  | a :: b :: L, h => by
      rw [arcs_cons_cons]
      refine List.nodup_cons.mpr ⟨fun hmem => ?_, arcs_nodup (List.nodup_cons.mp h).2⟩
      exact (List.nodup_cons.mp h).1 (mem_arcs_fst hmem)

lemma chain'_mem_arcs {α : Type*} {r : α → α → Prop} :
    ∀ {L : List α}, L.Chain' r → ∀ p ∈ arcs L, r p.1 p.2
  | [], _, p, h => by simp [arcs] at h
  | [_], _, p, h => by simp [arcs] at h
  | a :: b :: L, h, p, hp => by
      rw [arcs_cons_cons] at hp
      rcases List.mem_cons.mp hp with hp | hp
      · subst hp; exact (List.chain'_cons.mp h).1
      · exact chain'_mem_arcs (List.chain'_cons.mp h).2 p hp

/-- Cost of a walk: the sum of the costs of its consecutive arcs. -/
def walkCost {n : ℕ} (c : Fin n → Fin n → ℚ) (L : List (Fin n)) : ℚ :=
  ((arcs L).map fun p => c p.1 p.2).sum

lemma walkCost_cons_cons {n : ℕ} (c : Fin n → Fin n → ℚ) (a b : Fin n)
    (L : List (Fin n)) :
    walkCost c (a :: b :: L) = c a b + walkCost c (b :: L) := by
  simp [walkCost, arcs_cons_cons]

/-- A quantity satisfying all single-arc relaxation inequalities is bounded
along every walk. -/
lemma le_walkCost {n : ℕ} {x : Fin n → ℚ} {c : Fin n → Fin n → ℚ}
    (harc : ∀ i j, x j ≤ x i + c i j) :
    ∀ (L : List (Fin n)) (a b : Fin n), L.head? = some a →
      L.getLast? = some b → x b ≤ x a + walkCost c L
  | [], a, b, ha, _ => by simp at ha
  | [v], a, b, ha, hb => by
      simp at ha hb
      subst ha; subst hb
      simp [walkCost, arcs]
  | v :: w :: L, a, b, ha, hb => by
      simp only [List.head?_cons, Option.some_inj] at ha
      subst ha
      have hb' : (w :: L).getLast? = some b :=
        List.getLast?_cons_cons.symm.trans hb
      have ih := le_walkCost harc (w :: L) w b rfl hb'
      have := harc v w
      rw [walkCost_cons_cons]
      linarith

/-- Cycle removal: every nonempty chain admits a duplicate-free chain with
the same endpoints, drawn from the same elements. -/
lemma exists_nodup_chain {α : Type*} {r : α → α → Prop} :
    ∀ (N : ℕ) (L : List α), L.length ≤ N → L ≠ [] → L.Chain' r →
      ∃ L', L' ≠ [] ∧ L'.Nodup ∧ L'.Chain' r ∧ L'.head? = L.head? ∧
        L'.getLast? = L.getLast? ∧ ∀ y ∈ L', y ∈ L := by
  intro N
  induction N with
  | zero => intro L hlen hne _; cases L with
      | nil => exact absurd rfl hne
      | cons a M => simp at hlen
  | succ N ih =>
      intro L hlen hne hchain
      cases L with
      | nil => exact absurd rfl hne
      | cons a M =>
          by_cases haM : a ∈ M
          · obtain ⟨B, C, hBC⟩ := List.append_of_mem haM
            have hsplit : a :: M = (a :: B) ++ a :: C := by
              rw [hBC]; simp
            have hlenBC : M.length = B.length + C.length + 1 := by
              rw [hBC]; simp; omega
            have hlen2 : (a :: C).length ≤ N := by
              simp only [List.length_cons] at hlen ⊢
              omega
            have hchain2 : (a :: C).Chain' r := by
              rw [hsplit] at hchain
              exact hchain.right_of_append
            obtain ⟨L', h1, h2, h3, h4, h5, h6⟩ :=
              ih (a :: C) hlen2 (by simp) hchain2
            refine ⟨L', h1, h2, h3, by simpa using h4, ?_, ?_⟩
            · rw [h5, hsplit, List.getLast?_append_of_ne_nil _ (by simp)]
            · intro y hy
              have := h6 y hy
              rw [hsplit]
              rcases List.mem_cons.mp this with h | h
              · simp [h]
              · simp [h]
          · cases M with
            | nil =>
                exact ⟨[a], by simp, List.nodup_singleton a,
                  List.chain'_singleton a, rfl, rfl, by simp⟩
            | cons m M' =>
                have hchainM : (m :: M').Chain' r := (List.chain'_cons'.mp hchain).2
                obtain ⟨L', h1, h2, h3, h4, h5, h6⟩ :=
                  ih (m :: M') (by simpa using hlen) (by simp) hchainM
                refine ⟨a :: L', by simp, ?_, ?_, by simp, ?_, ?_⟩
                · exact List.nodup_cons.mpr ⟨fun h => haM (h6 a h), h2⟩
                · refine List.chain'_cons'.mpr ⟨?_, h3⟩
                  intro y hy
                  rw [h4] at hy
                  simp only [List.head?_cons, Option.mem_def, Option.some_inj] at hy
                  subst hy
                  exact (List.chain'_cons'.mp hchain).1 _ rfl
                · cases L' with
                  | nil => exact absurd rfl h1
                  | cons z L'' =>
                      rw [List.getLast?_cons_cons, h5, List.getLast?_cons_cons]
                · intro y hy
                  rcases List.mem_cons.mp hy with h | h
                  · simp [h]
                  · exact List.mem_cons_of_mem a (h6 y h)

/-- A reflexive-transitive chain of arcs yields a concrete walk. -/
lemma reflTransGen_exists_chain {α : Type*} {r : α → α → Prop} {a b : α}
    (h : Relation.ReflTransGen r a b) :
    ∃ L : List α, L ≠ [] ∧ L.Chain' r ∧ L.head? = some a ∧
      L.getLast? = some b := by
  induction h with
  | refl => exact ⟨[a], by simp, by simp, rfl, rfl⟩
  | tail hab hbc ihL =>
      obtain ⟨L, h1, h2, h3, h4⟩ := ihL
      rename_i c d
      refine ⟨L ++ [d], by simp, ?_, ?_, ?_⟩
      · refine List.Chain'.append h2 (by simp) ?_
        intro x hx y hy
        rw [h4] at hx
        simp at hx hy
        subst hx; subst hy
        exact hbc
      · rw [List.head?_append_of_ne_nil _ h1, h3]
      · rw [List.getLast?_append_of_ne_nil _ (by simp)]; rfl

end Walks

/-! ### Flow decomposition: flux-feasible scenarios contain an s-t path -/

section FlowDecomposition

variable {n : ℕ}

lemma YFeas_ne {s t : Fin n} {Y : Fin n → Fin n → Bool} (hY : YFeas s t Y) :
    s ≠ t := by
  intro h
  have h1 := hY.1
  have h2 := hY.2.1
  rw [h, h2] at h1
  norm_num at h1

/-- The flow-conservation constraints force `t` to be reachable from `s`
inside the support of `Y` (summing net flux over the reachable set would
otherwise give `1 ≤ 0`). -/
lemma YFeas_reach {s t : Fin n} {Y : Fin n → Fin n → Bool} (hY : YFeas s t Y) :
    Relation.ReflTransGen (fun a b => Y a b = true) s t := by
  by_contra hreach
  classical
  set R : Finset (Fin n) :=
    Finset.univ.filter (fun j => Relation.ReflTransGen (fun a b => Y a b = true) s j)
    with hR
  have hmem : ∀ j, j ∈ R ↔ Relation.ReflTransGen (fun a b => Y a b = true) s j := by
    intro j; simp [hR]
  have hsR : s ∈ R := (hmem s).mpr Relation.ReflTransGen.refl
  have htR : t ∉ R := fun h => hreach ((hmem t).mp h)
  have hclosed : ∀ i j, i ∈ R → Y i j = true → j ∈ R := fun i j hi hij =>
    (hmem j).mpr (Relation.ReflTransGen.tail ((hmem i).mp hi) hij)
  have hsum1 : ∑ j ∈ R, netFlux Y j = 1 := by
    rw [Finset.sum_eq_single_of_mem s hsR]
    · exact hY.1
    · intro j hj hjs
      exact hY.2.2 j hjs fun h => htR (h ▸ hj)
  have hsum2 : ∑ j ∈ R, netFlux Y j ≤ 0 := by
    unfold netFlux
    rw [Finset.sum_sub_distrib]
    have e1 : ∑ j ∈ R, ∑ k, bval (Y j k) = ∑ j ∈ R, ∑ k ∈ R, bval (Y j k) := by
      refine Finset.sum_congr rfl fun j hj => ?_
      symm
      refine Finset.sum_subset (Finset.subset_univ R) fun k _ hk => ?_
      by_cases h : Y j k
      · exact absurd (hclosed j k hj h) hk
      · simp [bval, h]
    have e2 : ∑ j ∈ R, ∑ i ∈ R, bval (Y i j) ≤ ∑ j ∈ R, ∑ i, bval (Y i j) := by
      refine Finset.sum_le_sum fun j _ => ?_
      exact Finset.sum_le_sum_of_subset_of_nonneg (Finset.subset_univ R)
        fun i _ _ => bval_nonneg _
    have e3 : ∑ j ∈ R, ∑ k ∈ R, bval (Y j k) = ∑ j ∈ R, ∑ i ∈ R, bval (Y i j) :=
      Finset.sum_comm
    linarith
  linarith

/-- Flow decomposition: a flux-feasible scenario supports a duplicate-free
path from `s` to `t`. -/
lemma YFeas_exists_path {s t : Fin n} {Y : Fin n → Fin n → Bool}
    (hY : YFeas s t Y) :
    ∃ L : List (Fin n), L ≠ [] ∧ L.Nodup ∧
      L.Chain' (fun a b => Y a b = true) ∧ L.head? = some s ∧
      L.getLast? = some t := by
  obtain ⟨L, h1, h2, h3, h4⟩ := reflTransGen_exists_chain (YFeas_reach hY)
  obtain ⟨L', g1, g2, g3, g4, g5, _⟩ :=
    exists_nodup_chain L.length L le_rfl h1 h2
  exact ⟨L', g1, g2, g3, g4.trans h3, g5.trans h4⟩

end FlowDecomposition

/-! ### Computable reachability

Modelled from the spec: at INIT the orchestrator performs "a cheap
reachability check before entering the loop" on "the union of all
non-sentinel arcs", raising `NoPathExists` when it fails.  `reachN` performs
`n` rounds of frontier expansion. -/

section Reachability

variable {n : ℕ}

/-- Breadth-first reachable set after `k` expansion rounds. -/
def reachN (adj : Fin n → Fin n → Bool) (s : Fin n) : ℕ → Finset (Fin n)
  | 0 => {s}
  | k + 1 => reachN adj s k ∪
      Finset.univ.filter fun j => ∃ i ∈ reachN adj s k, adj i j = true

lemma reachN_subset_succ (adj : Fin n → Fin n → Bool) (s : Fin n) (k : ℕ) :
    reachN adj s k ⊆ reachN adj s (k + 1) :=
  Finset.subset_union_left

lemma reachN_mono (adj : Fin n → Fin n → Bool) (s : Fin n) {k m : ℕ}
    (h : k ≤ m) : reachN adj s k ⊆ reachN adj s m := by
  induction h with
  | refl => exact subset_rfl
  | step _ ih => exact fun x hx =>
      reachN_subset_succ adj s _ (ih hx)

lemma mem_reachN_step {adj : Fin n → Fin n → Bool} {s : Fin n} {k : ℕ}
    {i j : Fin n} (hi : i ∈ reachN adj s k) (hij : adj i j = true) :
    j ∈ reachN adj s (k + 1) := by
  unfold reachN
  refine Finset.mem_union_right _ (Finset.mem_filter.mpr ⟨Finset.mem_univ j, ?_⟩)
  exact ⟨i, hi, hij⟩

lemma reachN_sound {adj : Fin n → Fin n → Bool} {s : Fin n} :
    ∀ {k : ℕ} {j : Fin n}, j ∈ reachN adj s k →
      Relation.ReflTransGen (fun a b => adj a b = true) s j := by
  intro k
  induction k with
  | zero =>
      intro j hj
      have : j = s := by simpa [reachN] using hj
      exact this ▸ Relation.ReflTransGen.refl
  | succ k ih =>
      intro j hj
      rcases Finset.mem_union.mp hj with h | h
      · exact ih h
      · obtain ⟨i, hi, hij⟩ := (Finset.mem_filter.mp h).2
        exact Relation.ReflTransGen.tail (ih hi) hij

lemma chain_mem_reachN {adj : Fin n → Fin n → Bool} {s : Fin n} :
    ∀ (L : List (Fin n)) (k : ℕ) (a b : Fin n),
      L.Chain' (fun a b => adj a b = true) → L.head? = some a →
      a ∈ reachN adj s k → L.getLast? = some b →
      b ∈ reachN adj s (k + L.length)
  | [], _, _, _, _, ha, _, _ => by simp at ha
  | [v], k, a, b, _, ha, hak, hb => by
      simp at ha hb
      subst ha; subst hb
      exact reachN_mono adj s (Nat.le_succ k) hak
  | v :: w :: L, k, a, b, hchain, ha, hak, hb => by
      simp only [List.head?_cons, Option.some_inj] at ha
      subst ha
      have hw : w ∈ reachN adj s (k + 1) :=
        mem_reachN_step hak (List.chain'_cons.mp hchain).1
      have hb' : (w :: L).getLast? = some b :=
        List.getLast?_cons_cons.symm.trans hb
      have := chain_mem_reachN (w :: L) (k + 1) w b
        (List.chain'_cons.mp hchain).2 rfl hw hb'
      have harith : k + 1 + (w :: L).length = k + (v :: w :: L).length := by
        simp; omega
      exact harith ▸ this

/-- The `n`-round frontier expansion decides reachability. -/
lemma reachN_iff (adj : Fin n → Fin n → Bool) (s j : Fin n) :
    j ∈ reachN adj s n ↔
      Relation.ReflTransGen (fun a b => adj a b = true) s j := by
  constructor
  · exact reachN_sound
  · intro h
    obtain ⟨L, h1, h2, h3, h4⟩ := reflTransGen_exists_chain h
    obtain ⟨L', g1, g2, g3, g4, g5, _⟩ :=
      exists_nodup_chain L.length L le_rfl h1 h2
    have hlen : L'.length ≤ n := by
      have := g2.length_le_card
      simpa using this
    have hs : s ∈ reachN adj s 0 := by simp [reachN]
    have := chain_mem_reachN L' 0 s j g3 (g4.trans h3) hs (g5.trans h4)
    exact reachN_mono adj s (by omega) this

/-- Error taxonomy of the orchestrator, from the spec's error-handling
design (only the constructors needed by the claims are modelled). -/
inductive RspError where
  | noPathExists
  | iterationLimitExceeded
deriving DecidableEq

/-- Modelled from the spec: the INIT-stage reachability validation of the
Benders Orchestrator ("detected at INIT via a cheap reachability check
before entering the loop; fatal").  The orchestrator itself is in the
repository's `robust_shortest_path.py`, which is not among the provided
sources. -/
def checkInit (adj : Fin n → Fin n → Bool) (s t : Fin n) :
    Except RspError Unit :=
  if t ∈ reachN adj s n then Except.ok () else Except.error RspError.noPathExists

/-- Modelled from the spec: the orchestrator runs INIT and enters the
iteration loop (abstracted by `loop`) only on success. -/
def runBenders {A : Type} (adj : Fin n → Fin n → Bool) (s t : Fin n)
    (loop : Unit → Except RspError A) : Except RspError A :=
  match checkInit adj s t with
  | Except.ok _ => loop ()
  | Except.error e => Except.error e

end Reachability

/-! ### Exhaustive enumeration of simple paths -/

section Enumeration

variable {n : ℕ}

lemma mem_of_getLast?_eq {α : Type*} {L : List α} {b : α}
    (h : L.getLast? = some b) : b ∈ L := by
  cases L with
  | nil => simp at h
  | cons a M =>
      have hne : a :: M ≠ [] := by simp
      rw [List.getLast?_eq_getLast_of_ne_nil hne, Option.some_inj] at h
      exact h ▸ List.getLast_mem hne

/-- Depth-first enumeration of the duplicate-free `adj`-paths from `v` to
`tgt` that avoid `vis` and have at most `fuel + 1` nodes. -/
def pathsFrom (adj : Fin n → Fin n → Bool) (tgt : Fin n) :
    ℕ → Fin n → List (Fin n) → List (List (Fin n))
  | 0, v, _ => if v = tgt then [[v]] else []
  | fuel + 1, v, vis =>
      if v = tgt then [[v]] else
      ((List.finRange n).filter
          fun w => adj v w && !(decide (w ∈ v :: vis))).flatMap
        fun w => (pathsFrom adj tgt fuel w (v :: vis)).map fun P => v :: P

lemma singleton_mem_pathsFrom (adj : Fin n → Fin n → Bool) (tgt : Fin n)
    (fuel : ℕ) (vis : List (Fin n)) :
    [tgt] ∈ pathsFrom adj tgt fuel tgt vis := by
  cases fuel <;> simp [pathsFrom]

/-- Completeness of the enumeration: every duplicate-free `adj`-path from
`v` to `tgt` avoiding `vis` occurs in `pathsFrom` with enough fuel. -/
lemma mem_pathsFrom {adj : Fin n → Fin n → Bool} {tgt : Fin n} :
    ∀ (fuel : ℕ) (P : List (Fin n)) (v : Fin n) (vis : List (Fin n)),
      P.head? = some v → P.getLast? = some tgt → P.Nodup →
      P.Chain' (fun a b => adj a b = true) → (∀ y ∈ P, y ∉ vis) →
      P.length ≤ fuel + 1 → P ∈ pathsFrom adj tgt fuel v vis := by
  intro fuel
  induction fuel with
  | zero =>
      intro P v vis hv htgt _ _ _ hlen
      cases P with
      | nil => simp at hv
      | cons a Q =>
          cases Q with
          | nil =>
              simp only [List.head?_cons, Option.some_inj] at hv
              simp only [List.getLast?_singleton, Option.some_inj] at htgt
              subst hv; subst htgt
              simp [pathsFrom]
          | cons b Q' => simp at hlen
  | succ fuel ih =>
      intro P v vis hv htgt hnd hch hvis hlen
      cases P with
      | nil => simp at hv
      | cons a Q =>
          simp only [List.head?_cons, Option.some_inj] at hv
          subst a
          by_cases hvt : v = tgt
          · subst v
            cases Q with
            | nil => exact singleton_mem_pathsFrom adj tgt (fuel + 1) vis
            | cons b Q' =>
                exfalso
                have hmem : tgt ∈ b :: Q' :=
                  mem_of_getLast?_eq (List.getLast?_cons_cons.symm.trans htgt)
                exact (List.nodup_cons.mp hnd).1 hmem
          · cases Q with
            | nil =>
                simp only [List.getLast?_singleton, Option.some_inj] at htgt
                exact absurd htgt hvt
            | cons w Q' =>
                unfold pathsFrom
                rw [if_neg hvt]
                refine List.mem_flatMap.mpr ⟨w, ?_, ?_⟩
                · refine List.mem_filter.mpr ⟨List.mem_finRange w, ?_⟩
                  have hadj : adj v w = true := (List.chain'_cons.mp hch).1
                  have hwv : w ≠ v := fun h =>
                    (List.nodup_cons.mp hnd).1 (h ▸ List.mem_cons_self w Q')
                  have hwvis : w ∉ vis := hvis w (by simp)
                  simp [hadj, hwv, hwvis]
                · refine List.mem_map.mpr ⟨w :: Q', ?_, rfl⟩
                  refine ih (w :: Q') w (v :: vis) rfl
                    (List.getLast?_cons_cons.symm.trans htgt)
                    (List.nodup_cons.mp hnd).2
                    (List.chain'_cons.mp hch).2
                    ?_ (by simpa using hlen)
                  intro y hy
                  simp only [List.mem_cons, not_or]
                  refine ⟨fun h => (List.nodup_cons.mp hnd).1 (h ▸ hy), ?_⟩
                  exact hvis y (List.mem_cons_of_mem v hy)

end Enumeration

/-! ### Summation helpers -/

section SumHelpers

variable {n : ℕ}

lemma chain'_of_arcs {α : Type*} {r : α → α → Prop} :
    ∀ {L : List α}, (∀ p ∈ arcs L, r p.1 p.2) → L.Chain' r
  | [], _ => List.chain'_nil
  | [a], _ => List.chain'_singleton a
  | a :: b :: L, h => by
      refine List.chain'_cons.mpr ⟨h (a, b) (by rw [arcs_cons_cons]; simp), ?_⟩
      exact chain'_of_arcs fun p hp => h p (by rw [arcs_cons_cons]; simp [hp])

lemma arcs_fst_ne_snd {α : Type*} :
    ∀ {L : List α}, L.Nodup → ∀ p ∈ arcs L, p.1 ≠ p.2
  | [], _, p, hp => by simp [arcs] at hp
  | [_], _, p, hp => by simp [arcs] at hp
  | a :: b :: L, h, p, hp => by
      rw [arcs_cons_cons] at hp
      rcases List.mem_cons.mp hp with hp | hp
      · subst hp
        intro hab
        exact (List.nodup_cons.mp h).1 (List.mem_cons.mpr (Or.inl hab))
      · exact arcs_fst_ne_snd (List.nodup_cons.mp h).2 p hp

lemma sum_map_add {α : Type*} (f g : α → ℚ) :
    ∀ L : List α, (L.map fun a => f a + g a).sum = (L.map f).sum + (L.map g).sum
  | [] => by simp
  | a :: L => by
      simp only [List.map_cons, List.sum_cons, sum_map_add f g L]
      ring

lemma list_sum_cast {α : Type*} (f : α → ℤ) :
    ∀ L : List α, (L.map fun a => ((f a : ℤ) : ℚ)).sum = (((L.map f).sum : ℤ) : ℚ)
  | [] => by simp
  | a :: L => by
      simp only [List.map_cons, List.sum_cons, list_sum_cast f L]
      push_cast
      ring

/-- The distance-constraint coefficient evaluates to `u` on selected arcs
and `l` elsewhere. -/
lemma eff_ite (lq uq : ℚ) (b : Bool) :
    lq + (uq - lq) * bval b = if b then uq else lq := by
  cases b <;> simp [bval]

/-- The objective's double sum is the sum of `u` over the support of `Y`. -/
lemma objective_sum_support (uq : Fin n → Fin n → ℚ)
    (Y : Fin n → Fin n → Bool) :
    (∑ i, ∑ j, uq i j * bval (Y i j)) =
      ∑ p ∈ Finset.univ.filter (fun p : Fin n × Fin n => Y p.1 p.2 = true),
        uq p.1 p.2 := by
  rw [Finset.sum_filter]
  rw [← Finset.univ_product_univ, Finset.sum_product]
  refine Finset.sum_congr rfl fun i _ => Finset.sum_congr rfl fun j _ => ?_
  by_cases h : Y i j <;> simp [bval, h]

/-- Integer form of the objective's double sum. -/
lemma objective_sum_cast (uz : Fin n → Fin n → ℤ) (Y : Fin n → Fin n → Bool)
    (x : Fin n → ℚ) (tn : Fin n) :
    objective (matQ uz) tn Y x =
      (((∑ i, ∑ j, if Y i j then uz i j else 0 : ℤ) : ℚ)) - x tn := by
  unfold objective
  congr 1
  push_cast
  refine Finset.sum_congr rfl fun i _ => Finset.sum_congr rfl fun j _ => ?_
  by_cases h : Y i j <;> simp [bval, matQ, h]

end SumHelpers

/-! ### The solved instance: scenario, distances, and path certificates -/

/-- Optimal scenario reported by the solver: the arcs of the path
`0 -> 17 -> 19 -> 4`. -/
def Ystar : Fin 20 → Fin 20 → Bool := fun i j =>
  ([(0, 17), (17, 19), (19, 4)] : List (ℕ × ℕ)).contains (i.1, j.1)

/-- Shortest-distance labels under the effective costs of `Ystar`
(matching the continuous values reported by the solver). -/
def xstarZ : Fin 20 → ℤ := fun j => xstarRow.getD j.1 0

/-- Rational view of the distance labels. -/
def xstarQ : Fin 20 → ℚ := fun j => ((xstarZ j : ℤ) : ℚ)

/-- Real (non-sentinel, non-self-loop) arcs of the generated graph. -/
def adjReal : Fin 20 → Fin 20 → Bool := fun i j =>
  !(l i j == 10000) && !(i == j)

def toFin20 (a : ℕ) : Fin 20 := ⟨a % 20, Nat.mod_lt a (by norm_num)⟩

def certListN : List (List ℕ × List ℕ) := [
  ([0, 14, 11, 1, 6, 4], [0, 17, 19, 4]),
  ([0, 14, 11, 1, 9, 10, 8, 3, 2, 12, 17, 19, 4], [0, 17, 8, 4]),
  ([0, 14, 11, 1, 9, 10, 8, 3, 2, 12, 19, 4], [0, 17, 8, 4]),
  ([0, 14, 11, 1, 9, 10, 8, 4], [0, 17, 19, 4]),
  ([0, 14, 11, 9, 1, 6, 4], [0, 17, 19, 4]),
  ([0, 14, 11, 9, 10, 8, 3, 2, 12, 17, 19, 4], [0, 17, 8, 4]),
  ([0, 14, 11, 9, 10, 8, 3, 2, 12, 19, 4], [0, 17, 8, 4]),
  ([0, 14, 11, 9, 10, 8, 4], [0, 17, 19, 4]),
  ([0, 14, 11, 12, 17, 8, 4], [0, 17, 19, 4]),
  ([0, 14, 11, 12, 17, 19, 4], [0, 17, 8, 4]),
  ([0, 14, 11, 12, 17, 19, 8, 4], [0, 17, 2, 12, 19, 4]),
  ([0, 14, 11, 12, 19, 4], [0, 17, 8, 4]),
  ([0, 14, 11, 12, 19, 8, 4], [0, 17, 19, 4]),
  ([0, 14, 11, 17, 2, 12, 19, 4], [0, 17, 8, 4]),
  ([0, 14, 11, 17, 2, 12, 19, 8, 4], [0, 17, 19, 4]),
  ([0, 14, 11, 17, 8, 3, 2, 12, 19, 4], [0, 17, 19, 8, 4]),
  ([0, 14, 11, 17, 8, 4], [0, 17, 19, 4]),
  ([0, 14, 11, 17, 19, 4], [0, 17, 8, 4]),
  ([0, 14, 11, 17, 19, 8, 4], [0, 17, 2, 12, 19, 4]),
  ([0, 14, 16, 11, 1, 6, 4], [0, 17, 19, 4]),
  ([0, 14, 16, 11, 1, 9, 10, 8, 3, 2, 12, 17, 19, 4], [0, 17, 8, 4]),
  ([0, 14, 16, 11, 1, 9, 10, 8, 3, 2, 12, 19, 4], [0, 17, 8, 4]),
  ([0, 14, 16, 11, 1, 9, 10, 8, 4], [0, 17, 19, 4]),
  ([0, 14, 16, 11, 9, 1, 6, 4], [0, 17, 19, 4]),
  ([0, 14, 16, 11, 9, 10, 8, 3, 2, 12, 17, 19, 4], [0, 17, 8, 4]),
  ([0, 14, 16, 11, 9, 10, 8, 3, 2, 12, 19, 4], [0, 17, 8, 4]),
  ([0, 14, 16, 11, 9, 10, 8, 4], [0, 17, 19, 4]),
  ([0, 14, 16, 11, 12, 17, 8, 4], [0, 17, 19, 4]),
  ([0, 14, 16, 11, 12, 17, 19, 4], [0, 17, 8, 4]),
  ([0, 14, 16, 11, 12, 17, 19, 8, 4], [0, 17, 2, 12, 19, 4]),
  ([0, 14, 16, 11, 12, 19, 4], [0, 17, 8, 4]),
  ([0, 14, 16, 11, 12, 19, 8, 4], [0, 17, 19, 4]),
  ([0, 14, 16, 11, 17, 2, 12, 19, 4], [0, 17, 8, 4]),
  ([0, 14, 16, 11, 17, 2, 12, 19, 8, 4], [0, 17, 19, 4]),
  ([0, 14, 16, 11, 17, 8, 3, 2, 12, 19, 4], [0, 17, 19, 8, 4]),
  ([0, 14, 16, 11, 17, 8, 4], [0, 17, 19, 4]),
  ([0, 14, 16, 11, 17, 19, 4], [0, 17, 8, 4]),
  ([0, 14, 16, 11, 17, 19, 8, 4], [0, 17, 2, 12, 19, 4]),
  ([0, 14, 16, 19, 4], [0, 17, 8, 4]),
  ([0, 14, 16, 19, 8, 3, 2, 12, 11, 1, 6, 4], [0, 17, 19, 4]),
  ([0, 14, 16, 19, 8, 3, 2, 12, 11, 9, 1, 6, 4], [0, 17, 19, 4]),
  ([0, 14, 16, 19, 8, 3, 11, 1, 6, 4], [0, 17, 19, 4]),
  ([0, 14, 16, 19, 8, 3, 11, 9, 1, 6, 4], [0, 17, 19, 4]),
  ([0, 14, 16, 19, 8, 4], [0, 17, 19, 4]),
  ([0, 14, 16, 19, 8, 11, 1, 6, 4], [0, 17, 19, 4]),
  ([0, 14, 16, 19, 8, 11, 9, 1, 6, 4], [0, 17, 19, 4]),
  ([0, 14, 16, 19, 12, 11, 1, 6, 4], [0, 17, 19, 4]),
  ([0, 14, 16, 19, 12, 11, 1, 9, 10, 8, 4], [0, 17, 19, 4]),
  ([0, 14, 16, 19, 12, 11, 9, 1, 6, 4], [0, 17, 19, 4]),
  ([0, 14, 16, 19, 12, 11, 9, 10, 8, 4], [0, 17, 19, 4]),
  ([0, 14, 16, 19, 12, 11, 17, 8, 4], [0, 17, 19, 4]),
  ([0, 14, 16, 19, 12, 17, 8, 3, 11, 1, 6, 4], [0, 17, 19, 4]),
  ([0, 14, 16, 19, 12, 17, 8, 3, 11, 9, 1, 6, 4], [0, 17, 19, 4]),
  ([0, 14, 16, 19, 12, 17, 8, 4], [0, 17, 19, 4]),
  ([0, 14, 16, 19, 12, 17, 8, 11, 1, 6, 4], [0, 17, 19, 4]),
  ([0, 14, 16, 19, 12, 17, 8, 11, 9, 1, 6, 4], [0, 17, 19, 4]),
  ([0, 17, 2, 12, 11, 1, 6, 4], [0, 14, 16, 19, 4]),
  ([0, 17, 2, 12, 11, 1, 9, 10, 8, 4], [0, 14, 16, 19, 4]),
  ([0, 17, 2, 12, 11, 9, 1, 6, 4], [0, 14, 16, 19, 4]),
  ([0, 17, 2, 12, 11, 9, 10, 8, 4], [0, 14, 16, 19, 4]),
  ([0, 17, 2, 12, 19, 4], [0, 14, 11, 9, 10, 8, 4]),
  ([0, 17, 2, 12, 19, 8, 3, 11, 1, 6, 4], [0, 14, 16, 19, 4]),
  ([0, 17, 2, 12, 19, 8, 3, 11, 9, 1, 6, 4], [0, 14, 16, 19, 4]),
  ([0, 17, 2, 12, 19, 8, 4], [0, 14, 16, 19, 4]),
  ([0, 17, 2, 12, 19, 8, 11, 1, 6, 4], [0, 14, 16, 19, 4]),
  ([0, 17, 2, 12, 19, 8, 11, 9, 1, 6, 4], [0, 14, 16, 19, 4]),
  ([0, 17, 8, 3, 2, 12, 11, 1, 6, 4], [0, 14, 16, 19, 4]),
  ([0, 17, 8, 3, 2, 12, 11, 9, 1, 6, 4], [0, 14, 16, 19, 4]),
  ([0, 17, 8, 3, 2, 12, 19, 4], [0, 14, 11, 9, 10, 8, 4]),
  ([0, 17, 8, 3, 11, 1, 6, 4], [0, 14, 16, 19, 4]),
  ([0, 17, 8, 3, 11, 9, 1, 6, 4], [0, 14, 16, 19, 4]),
  ([0, 17, 8, 3, 11, 12, 19, 4], [0, 14, 11, 9, 10, 8, 4]),
  ([0, 17, 8, 4], [0, 14, 16, 19, 4]),
  ([0, 17, 8, 11, 1, 6, 4], [0, 14, 16, 19, 4]),
  ([0, 17, 8, 11, 9, 1, 6, 4], [0, 14, 16, 19, 4]),
  ([0, 17, 8, 11, 12, 19, 4], [0, 14, 11, 9, 10, 8, 4]),
  ([0, 17, 19, 4], [0, 14, 11, 9, 10, 8, 4]),
  ([0, 17, 19, 8, 3, 2, 12, 11, 1, 6, 4], [0, 14, 16, 19, 4]),
  ([0, 17, 19, 8, 3, 2, 12, 11, 9, 1, 6, 4], [0, 14, 16, 19, 4]),
  ([0, 17, 19, 8, 3, 11, 1, 6, 4], [0, 14, 16, 19, 4]),
  ([0, 17, 19, 8, 3, 11, 9, 1, 6, 4], [0, 14, 16, 19, 4]),
  ([0, 17, 19, 8, 4], [0, 14, 16, 19, 4]),
  ([0, 17, 19, 8, 11, 1, 6, 4], [0, 14, 16, 19, 4]),
  ([0, 17, 19, 8, 11, 9, 1, 6, 4], [0, 14, 16, 19, 4]),
  ([0, 17, 19, 12, 11, 1, 6, 4], [0, 14, 16, 19, 4]),
  ([0, 17, 19, 12, 11, 1, 9, 10, 8, 4], [0, 14, 16, 19, 4]),
  ([0, 17, 19, 12, 11, 9, 1, 6, 4], [0, 14, 16, 19, 4]),
  ([0, 17, 19, 12, 11, 9, 10, 8, 4], [0, 14, 16, 19, 4])
]

/-- The path/walk certificates over `Fin 20`. -/
def certList : List (List (Fin 20) × List (Fin 20)) :=
  certListN.map fun c => (c.1.map toFin20, c.2.map toFin20)

/-- Fallback walk `0 -> 14 -> 16 -> 19 -> 4` (all real arcs),
of worst-case cost 86. -/
def W0 : List (Fin 20) := [0, 14, 16, 19, 4]

/-- Certificate property: the walk `W` runs from `s` to `t` with
pairwise-distinct arcs, and the worst-case cost of the path `P` exceeds the
cost of `W` - priced at `u` on arcs of `P` and at `l` elsewhere - by at
least 53. -/
def certCheck (P W : List (Fin 20)) : Prop :=
  W.head? = some s ∧ W.getLast? = some t ∧ (arcs W).Nodup ∧
    53 ≤ ((arcs P).map fun p => u p.1 p.2).sum -
      ((arcs W).map fun p => if p ∈ arcs P then u p.1 p.2 else l p.1 p.2).sum

instance (P W : List (Fin 20)) : Decidable (certCheck P W) := by
  unfold certCheck; infer_instance

/-- Every enumerated simple real-arc path from `s` to `t` carries a
certificate. -/
def allCertified : Prop :=
  ∀ P ∈ pathsFrom adjReal t 20 s [], ∃ c ∈ certList, c.1 = P ∧ certCheck c.1 c.2

instance : Decidable allCertified := by
  unfold allCertified; infer_instance

set_option maxRecDepth 40000 in
lemma allCertified_holds : allCertified := by decide

lemma lQ_nonneg : ∀ i j, (0 : ℚ) ≤ lQ i j := fun i j => by
  have := l_nonneg i j
  unfold lQ matQ
  exact_mod_cast this

lemma uQ_nonneg : ∀ i j, (0 : ℚ) ≤ uQ i j := fun i j => by
  have := le_trans (l_nonneg i j) (l_le_u i j)
  unfold uQ matQ
  exact_mod_cast this

lemma lQ_le_uQ : ∀ i j, lQ i j ≤ uQ i j := fun i j => by
  have := l_le_u i j
  unfold lQ uQ matQ
  exact_mod_cast this

/-- Core lower bound: every feasible assignment of the model on the
generated instance has objective value at least 53.  The proof decomposes
the scenario's flow into a simple `s`-`t` path `P`, bounds `x t` along the
certificate walk of `P` (or along the fallback walk if `P` uses a sentinel
arc), and charges every selected off-path arc against its own contribution
to the objective. -/
lemma feasible_ge_53 {Y : Fin 20 → Fin 20 → Bool} {x : Fin 20 → ℚ}
    (hY : YFeas s t Y) (hx : XFeas lQ uQ s Y x) :
    53 ≤ objective uQ t Y x := by
  classical
  obtain ⟨P, hPne, hPnd, hPch, hPhd, hPlast⟩ := YFeas_exists_path hY
  have hPsub : ∀ p ∈ arcs P, Y p.1 p.2 = true := chain'_mem_arcs hPch
  have hobj : objective uQ t Y x =
      (∑ p ∈ Finset.univ.filter (fun p : Fin 20 × Fin 20 => Y p.1 p.2 = true),
        uQ p.1 p.2) - x t := by
    unfold objective
    rw [objective_sum_support]
  have harc : ∀ i j, x j ≤ x i + (if Y i j then uQ i j else lQ i j) := by
    intro i j
    have h := hx.2.2 i j
    rw [add_assoc] at h
    rwa [eff_ite] at h
  by_cases hreal : ∀ p ∈ arcs P, adjReal p.1 p.2 = true
  · -- the path uses only real arcs: it is one of the 88 enumerated paths
    have hPfin : P ∈ pathsFrom adjReal t 20 s [] := by
      refine mem_pathsFrom 20 P s [] hPhd hPlast hPnd
        (chain'_of_arcs fun p hp => hreal p hp) (by simp) ?_
      have h := hPnd.length_le_card
      simp only [Fintype.card_fin] at h
      omega
    obtain ⟨c, _, hceq, hcert⟩ := allCertified_holds P hPfin
    rw [hceq] at hcert
    obtain ⟨hWhd, hWlast, hWnd, hnum⟩ := hcert
    -- bound x t along the certificate walk
    have hxt0 := le_walkCost harc c.2 s t hWhd hWlast
    rw [hx.1, zero_add] at hxt0
    -- elementwise comparison of the walk's effective costs
    have hsum1 : ((arcs c.2).map fun p =>
          if Y p.1 p.2 then uQ p.1 p.2 else lQ p.1 p.2).sum ≤
        ((arcs c.2).map fun p =>
          (if p ∈ arcs P then uQ p.1 p.2 else lQ p.1 p.2) +
          (if Y p.1 p.2 = true ∧ p ∉ arcs P then uQ p.1 p.2 - lQ p.1 p.2
            else 0)).sum := by
      refine List.sum_le_sum fun p _ => ?_
      by_cases hy : Y p.1 p.2 <;> by_cases hp : p ∈ arcs P <;>
        (simp [hy, hp]; try linarith [lQ_le_uQ p.1 p.2])
    rw [sum_map_add] at hsum1
    -- charge the selected off-path walk arcs to the objective
    have hgsum : ((arcs c.2).map fun p =>
          if Y p.1 p.2 = true ∧ p ∉ arcs P then uQ p.1 p.2 - lQ p.1 p.2
            else 0).sum ≤
        ∑ p ∈ Finset.univ.filter
            (fun p : Fin 20 × Fin 20 => Y p.1 p.2 = true ∧ p ∉ arcs P),
          (uQ p.1 p.2 - lQ p.1 p.2) := by
      rw [← List.sum_toFinset _ hWnd, Finset.sum_filter]
      refine Finset.sum_le_sum_of_subset_of_nonneg (Finset.subset_univ _)
        fun p _ _ => ?_
      by_cases h : Y p.1 p.2 = true ∧ p ∉ arcs P
      · rw [if_pos h]
        linarith [lQ_le_uQ p.1 p.2]
      · rw [if_neg h]
    -- split the support sum along the path arcs
    have hsplit : ∑ p ∈ Finset.univ.filter
          (fun p : Fin 20 × Fin 20 => Y p.1 p.2 = true), uQ p.1 p.2 =
        (∑ p ∈ (arcs P).toFinset, uQ p.1 p.2) +
        ∑ p ∈ Finset.univ.filter
          (fun p : Fin 20 × Fin 20 => Y p.1 p.2 = true ∧ p ∉ arcs P),
          uQ p.1 p.2 := by
      rw [← Finset.sum_filter_add_sum_filter_not
        (Finset.univ.filter (fun p : Fin 20 × Fin 20 => Y p.1 p.2 = true))
        (fun p => p ∈ arcs P)]
      congr 1
      · refine Finset.sum_congr ?_ fun _ _ => rfl
        ext p
        simp only [Finset.mem_filter, Finset.mem_univ, true_and,
          List.mem_toFinset]
        exact ⟨fun h => h.2, fun h => ⟨hPsub p h, h⟩⟩
      · refine Finset.sum_congr ?_ fun _ _ => rfl
        ext p
        simp only [Finset.mem_filter, Finset.mem_univ, true_and, and_assoc]
    -- the certificate inequality, over ℚ
    have hPAsum : (∑ p ∈ (arcs P).toFinset, uQ p.1 p.2) =
        ((((arcs P).map fun p => u p.1 p.2).sum : ℤ) : ℚ) := by
      rw [List.sum_toFinset _ (arcs_nodup hPnd), ← list_sum_cast]
      rfl
    have hWsum : ((arcs c.2).map fun p =>
          if p ∈ arcs P then uQ p.1 p.2 else lQ p.1 p.2).sum =
        ((((arcs c.2).map fun p =>
          if p ∈ arcs P then u p.1 p.2 else l p.1 p.2).sum : ℤ) : ℚ) := by
      rw [← list_sum_cast]
      refine congrArg List.sum (List.map_congr_left fun p _ => ?_)
      by_cases hp : p ∈ arcs P <;> simp [hp, uQ, lQ, matQ]
    have hnumQ : (53 : ℚ) ≤ (∑ p ∈ (arcs P).toFinset, uQ p.1 p.2) -
        ((arcs c.2).map fun p =>
          if p ∈ arcs P then uQ p.1 p.2 else lQ p.1 p.2).sum := by
      rw [hPAsum, hWsum]
      exact_mod_cast hnum
    -- positive leftover of the off-path arcs
    have hDIFF : ∑ p ∈ Finset.univ.filter
          (fun p : Fin 20 × Fin 20 => Y p.1 p.2 = true ∧ p ∉ arcs P),
          (uQ p.1 p.2 - lQ p.1 p.2) ≤
        ∑ p ∈ Finset.univ.filter
          (fun p : Fin 20 × Fin 20 => Y p.1 p.2 = true ∧ p ∉ arcs P),
          uQ p.1 p.2 := by
      refine Finset.sum_le_sum fun p _ => ?_
      linarith [lQ_nonneg p.1 p.2]
    rw [hobj, hsplit]
    have hwc : walkCost (fun i j => if Y i j then uQ i j else lQ i j) c.2 =
        ((arcs c.2).map fun p =>
          if Y p.1 p.2 then uQ p.1 p.2 else lQ p.1 p.2).sum := rfl
    rw [hwc] at hxt0
    linarith
  · -- the path uses a sentinel arc: its upper-bound mass alone is 10000
    push_neg at hreal
    obtain ⟨p0, hp0mem, hp0⟩ := hreal
    have hYp0 : Y p0.1 p0.2 = true := hPsub p0 hp0mem
    have hne : p0.1 ≠ p0.2 := arcs_fst_ne_snd hPnd p0 hp0mem
    have hlp0 : l p0.1 p0.2 = 10000 := by
      by_contra h
      apply hp0
      simp [adjReal, h, hne]
    have hup0 : (uQ p0.1 p0.2 : ℚ) = 10000 := by
      have := sentinel_u p0.1 p0.2 hlp0
      unfold uQ matQ
      exact_mod_cast this
    have h10000 : (10000 : ℚ) ≤ ∑ p ∈ Finset.univ.filter
        (fun p : Fin 20 × Fin 20 => Y p.1 p.2 = true), uQ p.1 p.2 := by
      have hp0SY : p0 ∈ Finset.univ.filter
          (fun p : Fin 20 × Fin 20 => Y p.1 p.2 = true) := by
        simp [hYp0]
      have h := Finset.single_le_sum
        (fun (p : Fin 20 × Fin 20) _ => uQ_nonneg p.1 p.2) hp0SY
      linarith
    have hxt : x t ≤ 86 := by
      have h1 := le_walkCost harc W0 s t rfl rfl
      rw [hx.1, zero_add] at h1
      have h2 : walkCost (fun i j => if Y i j then uQ i j else lQ i j) W0 ≤
          walkCost uQ W0 := by
        refine List.sum_le_sum fun p _ => ?_
        by_cases hy : Y p.1 p.2
        · simp [hy]
        · simp only [hy, if_false]
          exact lQ_le_uQ p.1 p.2
      have h3 : walkCost uQ W0 = 86 := by
        have hz : ((arcs W0).map fun p => u p.1 p.2).sum = 86 := by decide
        have hc : walkCost uQ W0 =
            ((((arcs W0).map fun p => u p.1 p.2).sum : ℤ) : ℚ) :=
          list_sum_cast _ _
        rw [hc, hz]
        norm_num
      linarith
    rw [hobj]
    linarith

lemma Ystar_feasible : YFeas s t Ystar :=
  YFeas_of_check (by decide)

lemma xstar_feasible : XFeas lQ uQ s Ystar xstarQ :=
  XFeas_of_check (by decide)

lemma objective_at_star : objective uQ t Ystar xstarQ = 53 := by
  have h := objective_sum_cast u Ystar xstarQ t
  have h1 : (∑ i, ∑ j, if Ystar i j then u i j else 0) = 65 := by decide
  have h2 : xstarZ t = 12 := by decide
  have h3 : xstarQ t = 12 := by
    unfold xstarQ
    rw [h2]
    norm_num
  rw [show objective uQ t Ystar xstarQ =
    objective (matQ u) t Ystar xstarQ from rfl, h, h1, h3]
  norm_num

/-- Claim C2: the single-level mixed-integer model and the identical model
re-solved under the Benders strategy (`parameters.benders.strategy = 3`,
after `clean_before_solve`) optimize the same feasible set and objective,
so both report the same optimal value; on the generated 20-node instance
that value is 53.  This theorem certifies the shared optimum: 53 is
attained (by the path `0 -> 17 -> 19 -> 4` with its shortest-distance
labels), and no feasible assignment of the model does better. -/
theorem model_optimum_is_53 : IsLeast (objValues lQ uQ s t) 53 := by
  constructor
  · exact ⟨Ystar, xstarQ, ⟨Ystar_feasible, xstar_feasible⟩, objective_at_star⟩
  · rintro v ⟨Y, x, ⟨hY, hx⟩, rfl⟩
    exact feasible_ge_53 hY hx

/-! ### Claim C1: subproblem distance correctness -/

/-- Continuous values of the counterexample: the optimal labels of scenario
`Ystar`, with the label of node 18 lowered to `0` (node 18 has no
non-sentinel outgoing arc, so its label can drop to `0` without violating
any constraint or changing the optimal value at `t`). -/
def xC1Z : Fin 20 → ℤ := fun j => if j.1 = 18 then 0 else xstarZ j

/-- Rational view of the counterexample labels. -/
def xC1Q : Fin 20 → ℚ := fun j => ((xC1Z j : ℤ) : ℚ)

lemma effInt_le_M (Y : Fin 20 → Fin 20 → Bool) :
    ∀ i j, effInt l u Y i j ≤ 10000 := by
  intro i j
  unfold effInt
  by_cases h : Y i j
  · simp only [h, if_true]
    exact u_le_M i j
  · simp only [h, if_false]
    exact le_trans (l_le_u i j) (u_le_M i j)

lemma effInt_nonneg (Y : Fin 20 → Fin 20 → Bool) :
    ∀ i j, 0 ≤ effInt l u Y i j := by
  intro i j
  unfold effInt
  by_cases h : Y i j
  · simp only [h, if_true]
    exact le_trans (l_nonneg i j) (l_le_u i j)
  · simp only [h, if_false]
    exact l_nonneg i j

set_option maxRecDepth 100000 in
/-- Claim C1 (counterexample): for the scenario `Ystar` of the solved run,
`xC1Q` is an optimal continuous assignment of the fixed-scenario model,
node 18 is reachable from the source over non-sentinel arcs, the
Bellman-Ford reference labels have converged after 6 rounds, and yet the
optimal assignment disagrees with the reference shortest-path distance at
node 18 (0 instead of 7).  Hence an optimal `x` need not carry the true
shortest-path distance at every reachable node. -/
theorem subproblem_distances_counterexample :
    XOpt lQ uQ s t Ystar xC1Q ∧
    Relation.ReflTransGen (fun a b => adjReal a b = true) s 18 ∧
    (∀ j, bf (effInt l u Ystar) s 10000 7 j = bf (effInt l u Ystar) s 10000 6 j) ∧
    xC1Q 18 ≠ ((bf (effInt l u Ystar) s 10000 6 18 : ℤ) : ℚ) := by
  have hbf4 : bf (effInt l u Ystar) s 10000 6 t = 12 := by decide
  refine ⟨⟨XFeas_of_check (by decide), ?_⟩, ?_, by decide, ?_⟩
  · intro x' hx'
    have h := XFeas_le_bf hx' (fun j => effInt_le_M Ystar s j) 6 t
    rw [hbf4] at h
    have hxt : xC1Q t = 12 := by
      unfold xC1Q
      rw [show xC1Z t = 12 from by decide]
      norm_num
    rw [hxt]
    exact_mod_cast h
  · have h05 : adjReal 0 5 = true := by decide
    have h518 : adjReal 5 18 = true := by decide
    exact Relation.ReflTransGen.tail
      (Relation.ReflTransGen.tail Relation.ReflTransGen.refl h05) h518
  · rw [show bf (effInt l u Ystar) s 10000 6 18 = 7 from by decide]
    unfold xC1Q
    rw [show xC1Z 18 = 0 from by decide]
    norm_num

/-- Claim C1 (amended): for any scenario `Y` on the generated instance, if
the Bellman-Ford reference labels have stabilized after `K` rounds, then
every optimal continuous assignment of the fixed-scenario model equals the
reference shortest-path distance at the target `t`, and is dominated by
the reference distances at every node; equality at nodes other than `t`
is not guaranteed. -/
theorem subproblem_target_distance_correct {Y : Fin 20 → Fin 20 → Bool}
    {x : Fin 20 → ℚ} {K : ℕ}
    (hfix : ∀ j, bf (effInt l u Y) s 10000 (K + 1) j =
      bf (effInt l u Y) s 10000 K j)
    (hopt : XOpt lQ uQ s t Y x) :
    x t = ((bf (effInt l u Y) s 10000 K t : ℤ) : ℚ) ∧
    ∀ j, x j ≤ ((bf (effInt l u Y) s 10000 K j : ℤ) : ℚ) := by
  have hub := XFeas_le_bf hopt.1 (fun j => effInt_le_M Y s j)
  refine ⟨le_antisymm (hub K t) ?_, fun j => hub K j⟩
  have hfeas := bf_fix_XFeas (effInt_nonneg Y) (by norm_num) hfix
  exact hopt.2 _ hfeas

set_option maxRecDepth 100000 in
/-- Witness for the amended claim C1, at the solved scenario `Ystar` with
its optimal labels `xstarQ` and `K = 6`. -/
theorem subproblem_target_distance_correct_witness :
    xstarQ t = ((bf (effInt l u Ystar) s 10000 6 t : ℤ) : ℚ) ∧
    ∀ j, xstarQ j ≤ ((bf (effInt l u Ystar) s 10000 6 j : ℤ) : ℚ) := by
  have hfix : ∀ j, bf (effInt l u Ystar) s 10000 7 j =
      bf (effInt l u Ystar) s 10000 6 j := by decide
  have hopt : XOpt lQ uQ s t Ystar xstarQ := by
    refine ⟨xstar_feasible, ?_⟩
    intro x' hx'
    have h := XFeas_le_bf hx' (fun j => effInt_le_M Ystar s j) 6 t
    rw [show bf (effInt l u Ystar) s 10000 6 t = 12 from by decide] at h
    have hxt : xstarQ t = 12 := by
      unfold xstarQ
      rw [show xstarZ t = 12 from by decide]
      norm_num
    rw [hxt]
    exact_mod_cast h
  exact subproblem_target_distance_correct hfix hopt

/-! ### Claims C3, C4, C5: shape of the master model -/

/-- Claim C3: the objective function of the master binary program is
exactly the sum over all ordered node pairs `(i, j)` of
`upper_ij * Y[i,j]`, minus the distance variable of the target node. -/
theorem objective_is_pair_sum_minus_target {n : ℕ}
    (uq : Fin n → Fin n → ℚ) (tn : Fin n) (Y : Fin n → Fin n → Bool)
    (x : Fin n → ℚ) :
    objective uq tn Y x =
      (∑ p : Fin n × Fin n, uq p.1 p.2 * bval (Y p.1 p.2)) - x tn := by
  unfold objective
  congr 1
  rw [← Finset.univ_product_univ, Finset.sum_product]

/-- Modelled from the claim's wording (C4): the master problem consists of
the distance constraint `x_j ≤ x_i + lower_ij + (upper_ij - lower_ij)·Y_ij`
for every arc `(i, j)` (every ordered pair of the bounds matrices, sentinel
pairs being `(M, M)` arcs), together with `x_s = 0`, the variables' lower
bound `0`, and flow conservation - and nothing else. -/
def claimedConstraints {n : ℕ} (lq uq : Fin n → Fin n → ℚ) (sn tn : Fin n)
    (Y : Fin n → Fin n → Bool) (x : Fin n → ℚ) : Prop :=
  (∀ i j, x j ≤ x i + lq i j + (uq i j - lq i j) * bval (Y i j)) ∧
  x sn = 0 ∧ (∀ j, 0 ≤ x j) ∧
  netFlux Y sn = 1 ∧ netFlux Y tn = -1 ∧
  ∀ j, j ≠ sn → j ≠ tn → netFlux Y j = 0

/-- Claim C4: the model's feasible assignments are exactly those satisfying
the claimed constraint family (the per-arc distance constraints, plus
`x_s = 0`, the continuous variables' bound, and flow conservation); no
other arc constraint is imposed. -/
theorem master_constraints_exact {n : ℕ} (lq uq : Fin n → Fin n → ℚ)
    (sn tn : Fin n) (Y : Fin n → Fin n → Bool) (x : Fin n → ℚ) :
    modelFeasible lq uq sn tn Y x ↔ claimedConstraints lq uq sn tn Y x := by
  unfold modelFeasible XFeas YFeas claimedConstraints
  tauto

/-- Modelled from the claim's wording (C5): the selected arcs leaving a
node, and those entering it. -/
def outArcs {n : ℕ} (Y : Fin n → Fin n → Bool) (j : Fin n) :
    Finset (Fin n) := Finset.univ.filter fun k => Y j k = true

/-- Selected arcs entering a node. -/
def inArcs {n : ℕ} (Y : Fin n → Fin n → Bool) (j : Fin n) :
    Finset (Fin n) := Finset.univ.filter fun i => Y i j = true

lemma netFlux_eq_card {n : ℕ} (Y : Fin n → Fin n → Bool) (j : Fin n) :
    netFlux Y j = ((outArcs Y j).card : ℚ) - ((inArcs Y j).card : ℚ) := by
  unfold netFlux outArcs inArcs
  congr 1
  · rw [Finset.card_filter]
    push_cast
    refine Finset.sum_congr rfl fun k _ => ?_
    by_cases h : Y j k <;> simp [bval, h]
  · rw [Finset.card_filter]
    push_cast
    refine Finset.sum_congr rfl fun i _ => ?_
    by_cases h : Y i j <;> simp [bval, h]

/-- Claim C5: the flow-conservation constraints require the net outflow of
`Y` (number of selected arcs out minus number of selected arcs in) to be
`+1` at the source, `-1` at the target, and `0` at every other node. -/
theorem flux_constraints_are_net_outflow {n : ℕ} (sn tn : Fin n)
    (Y : Fin n → Fin n → Bool) :
    YFeas sn tn Y ↔
      (((outArcs Y sn).card : ℚ) - ((inArcs Y sn).card : ℚ) = 1 ∧
       ((outArcs Y tn).card : ℚ) - ((inArcs Y tn).card : ℚ) = -1 ∧
       ∀ j, j ≠ sn → j ≠ tn →
         ((outArcs Y j).card : ℚ) - ((inArcs Y j).card : ℚ) = 0) := by
  unfold YFeas
  rw [netFlux_eq_card, netFlux_eq_card]
  constructor
  · rintro ⟨h1, h2, h3⟩
    exact ⟨h1, h2, fun j hjs hjt => (netFlux_eq_card Y j) ▸ h3 j hjs hjt⟩
  · rintro ⟨h1, h2, h3⟩
    exact ⟨h1, h2, fun j hjs hjt => (netFlux_eq_card Y j).symm ▸ h3 j hjs hjt⟩

/-! ### Claim C6: monotonicity of the Benders bounds

Modelled from the spec: the Benders loop of the orchestrator (in the
repository's `robust_shortest_path.py`, not among the provided sources)
keeps `LB` as the running maximum of the master objectives and `UB` as the
running minimum of the subproblem values; every master value under-approximates
and every subproblem value over-approximates the bilevel optimum, which the
spec states as validity of the accumulated cuts. -/

/-- Running lower bound: maximum of the master objectives seen so far. -/
def LB (zm : ℕ → ℚ) : ℕ → ℚ
  | 0 => zm 0
  | i + 1 => max (LB zm i) (zm (i + 1))

/-- Running upper bound: minimum of the subproblem values seen so far. -/
def UB (zs : ℕ → ℚ) : ℕ → ℚ
  | 0 => zs 0
  | i + 1 => min (UB zs i) (zs (i + 1))

lemma LB_le_of_le {zm : ℕ → ℚ} {c : ℚ} (h : ∀ i, zm i ≤ c) :
    ∀ i, LB zm i ≤ c
  | 0 => h 0
  | i + 1 => max_le (LB_le_of_le h i) (h (i + 1))

lemma le_UB_of_le {zs : ℕ → ℚ} {c : ℚ} (h : ∀ i, c ≤ zs i) :
    ∀ i, c ≤ UB zs i
  | 0 => h 0
  | i + 1 => le_min (le_UB_of_le h i) (h (i + 1))

/-- Claim C6: if every master objective under-approximates and every
subproblem value over-approximates a common value (validity of the cuts),
then across iterations `LB` is non-decreasing, `UB` is non-increasing, and
`LB_i ≤ LB_{i+1} ≤ UB_{i+1} ≤ UB_i` for every iteration `i`. -/
theorem benders_bounds_monotone (zm zs : ℕ → ℚ) (opt : ℚ)
    (hm : ∀ i, zm i ≤ opt) (hs : ∀ i, opt ≤ zs i) :
    ∀ i, LB zm i ≤ LB zm (i + 1) ∧ LB zm (i + 1) ≤ UB zs (i + 1) ∧
      UB zs (i + 1) ≤ UB zs i := by
  intro i
  refine ⟨le_max_left _ _, ?_, min_le_left _ _⟩
  exact le_trans (LB_le_of_le hm (i + 1)) (le_UB_of_le hs (i + 1))

/-- Witness for claim C6: constant sequences `zm = 0`, `zs = 1` around the
optimum `1/2`, at iteration 0. -/
theorem benders_bounds_monotone_witness :
    LB (fun _ => 0) 0 ≤ LB (fun _ => 0) 1 ∧
    LB (fun _ => 0) 1 ≤ UB (fun _ => 1) 1 ∧
    UB (fun _ => 1) 1 ≤ UB (fun _ => 1) 0 :=
  benders_bounds_monotone (fun _ => 0) (fun _ => 1) (1/2)
    (fun _ => by norm_num) (fun _ => by norm_num) 0

/-! ### Claim C7: self-loops -/

/-- The solved scenario with the zero-cost self-loop `(9, 9)` switched on. -/
def Yselfloop : Fin 20 → Fin 20 → Bool := fun i j =>
  Ystar i j || (i == 9 && j == 9)

/-- Claim C7 (counterexample): it is not the case that every self-loop of
the generated graph carries cost 0 and is never selected - the
sparsification loop runs after the diagonal zeroing and overwrites the
diagonal entry `(0, 0)` with the sentinel 10000. -/
theorem selfloop_counterexample :
    ¬ ((∀ i : Fin 20, l i i = 0 ∧ u i i = 0) ∧
       ∀ Y x, modelFeasible lQ uQ s t Y x → ∀ i, Y i i = false) := by
  rintro ⟨h1, _⟩
  have h := (h1 0).1
  rw [show l 0 0 = 10000 from by decide] at h
  norm_num at h

/-- Claim C7 (amended): after generation, a self-loop keeps cost 0 exactly
when its `dummy` draw was zero - `(0,0)` carries the sentinel 10000 while
`(9,9)` carries 0 - and the model does not forbid selecting a zero-cost
self-loop: switching on `Y[9][9]` preserves feasibility and the optimal
objective value 53. -/
theorem selfloop_amended :
    l 0 0 = 10000 ∧ u 0 0 = 10000 ∧ l 9 9 = 0 ∧ u 9 9 = 0 ∧
    Yselfloop 9 9 = true ∧ modelFeasible lQ uQ s t Yselfloop xstarQ ∧
    objective uQ t Yselfloop xstarQ = 53 := by
  refine ⟨by decide, by decide, by decide, by decide, by decide,
    ⟨YFeas_of_check (by decide), XFeas_of_check (by decide)⟩, ?_⟩
  have h := objective_sum_cast u Yselfloop xstarQ t
  have h1 : (∑ i, ∑ j, if Yselfloop i j then u i j else 0) = 65 := by decide
  have h3 : xstarQ t = 12 := by
    unfold xstarQ
    rw [show xstarZ t = 12 from by decide]
    norm_num
  rw [show objective uQ t Yselfloop xstarQ =
    objective (matQ u) t Yselfloop xstarQ from rfl, h, h1, h3]
  norm_num

/-! ### Claim C8: NoPathExists before the loop -/

/-- Claim C8: the modelled orchestrator raises `NoPathExists` - fatally,
before any iteration of the loop runs - exactly when no arc sequence
connects the source to the target in the union of the non-sentinel arcs;
when such a sequence exists, INIT succeeds and control passes to the loop. -/
theorem noPathExists_before_loop {n : ℕ} (adj : Fin n → Fin n → Bool)
    (sn tn : Fin n) :
    (¬ Relation.ReflTransGen (fun a b => adj a b = true) sn tn →
      ∀ (A : Type) (loop : Unit → Except RspError A),
        runBenders adj sn tn loop = Except.error RspError.noPathExists) ∧
    (Relation.ReflTransGen (fun a b => adj a b = true) sn tn →
      ∀ (A : Type) (loop : Unit → Except RspError A),
        runBenders adj sn tn loop = loop ()) := by
  constructor <;> intro h A loop <;> unfold runBenders checkInit
  · rw [if_neg fun hm => h (reachN_sound hm)]
  · rw [if_pos ((reachN_iff adj sn tn).mpr h)]

/-- Witness for claim C8: on the arcless 2-node graph (source 0, target 1,
disconnected), the modelled run stops with `NoPathExists` without invoking
the loop. -/
theorem noPathExists_before_loop_witness :
    runBenders (fun _ _ => false) (0 : Fin 2) 1 (fun _ => Except.ok (0 : ℕ)) =
      Except.error RspError.noPathExists := by
  have hnr : ¬ Relation.ReflTransGen
      (fun a b : Fin 2 => (fun _ _ => false) a b = true) 0 1 := by
    intro h
    have hm := (reachN_iff (fun _ _ => false) (0 : Fin 2) 1).mpr h
    revert hm
    decide
  exact (noPathExists_before_loop (fun _ _ => false) 0 1).1 hnr ℕ
    fun _ => Except.ok 0

/-! ### Claim C9: the single-arc graph -/

/-- Lower-bound matrix of the 2-node single-arc instance: one arc
`0 -> 1` with lower bound `la`, the reverse pair carrying the sentinel
`Ms`, and zero-cost diagonal (the notebook's conventions). -/
def l2 (la Ms : ℚ) : Fin 2 → Fin 2 → ℚ := fun i j =>
  if i = 0 ∧ j = 1 then la else if i = 1 ∧ j = 0 then Ms else 0

/-- Upper-bound matrix of the 2-node single-arc instance. -/
def u2 (ua Ms : ℚ) : Fin 2 → Fin 2 → ℚ := fun i j =>
  if i = 0 ∧ j = 1 then ua else if i = 1 ∧ j = 0 then Ms else 0

/-- The only scenario support allowed by flow conservation on the
single-arc instance. -/
def Y2 : Fin 2 → Fin 2 → Bool := fun i j => i == 0 && j == 1

/-- The optimal continuous assignment of the single-arc instance. -/
def x2 (ua : ℚ) : Fin 2 → ℚ := fun j => if j = 1 then ua else 0

/-- Claim C9: on the graph whose only arc is the direct arc `s -> t` with
bounds `(la, ua)` and no alternative path, the optimal objective equals
`ua - ua = 0`; moreover flow conservation forces every master scenario to
select exactly that arc, and any subproblem-optimal assignment for any
feasible scenario already attains objective 0 - whence the Benders loop
converges at its first iteration. -/
theorem single_arc_graph_zero_regret (la ua Ms : ℚ)
    (h0 : 0 ≤ la) (hlu : la ≤ ua) (hM : 0 ≤ Ms) :
    IsLeast (objValues (l2 la Ms) (u2 ua Ms) 0 1) 0 ∧
    (∀ Y x, modelFeasible (l2 la Ms) (u2 ua Ms) (0 : Fin 2) 1 Y x →
      Y 0 1 = true ∧ Y 1 0 = false) ∧
    (∀ Y x, modelFeasible (l2 la Ms) (u2 ua Ms) (0 : Fin 2) 1 Y x →
      XOpt (l2 la Ms) (u2 ua Ms) 0 1 Y x →
      objective (u2 ua Ms) 1 Y x = 0) := by
  have hua : 0 ≤ ua := le_trans h0 hlu
  have hb01 : ∀ b : Bool, 0 ≤ bval b ∧ bval b ≤ 1 := by
    intro b
    cases b <;> norm_num [bval]
  -- entries of the instance matrices
  have L00 : l2 la Ms 0 0 = 0 := by norm_num [l2]
  have L01 : l2 la Ms 0 1 = la := by norm_num [l2]
  have L10 : l2 la Ms 1 0 = Ms := by norm_num [l2]
  have L11 : l2 la Ms 1 1 = 0 := by norm_num [l2]
  have U00 : u2 ua Ms 0 0 = 0 := by norm_num [u2]
  have U01 : u2 ua Ms 0 1 = ua := by norm_num [u2]
  have U10 : u2 ua Ms 1 0 = Ms := by norm_num [u2]
  have U11 : u2 ua Ms 1 1 = 0 := by norm_num [u2]
  have X0 : x2 ua 0 = 0 := by norm_num [x2]
  have X1 : x2 ua 1 = ua := by norm_num [x2]
  -- flow conservation forces the scenario on the off-diagonal pairs
  have hflux : ∀ Y : Fin 2 → Fin 2 → Bool, YFeas (0 : Fin 2) 1 Y →
      Y 0 1 = true ∧ Y 1 0 = false := by
    intro Y hY
    have h := hY.1
    simp only [netFlux, Fin.sum_univ_two] at h
    have h' : bval (Y 0 1) - bval (Y 1 0) = 1 := by linarith
    cases h01 : Y 0 1 <;> cases h10 : Y 1 0 <;> rw [h01, h10] at h'
    · exfalso
      norm_num [bval] at h'
    · exfalso
      norm_num [bval] at h'
    · exact ⟨rfl, rfl⟩
    · exfalso
      norm_num [bval] at h'
  -- the objective's first sum collapses to `ua`
  have hsum : ∀ Y : Fin 2 → Fin 2 → Bool, Y 0 1 = true → Y 1 0 = false →
      (∑ i, ∑ j, u2 ua Ms i j * bval (Y i j)) = ua := by
    intro Y h01 h10
    simp only [Fin.sum_univ_two, h01, h10, U00, U01, U10, U11]
    norm_num [bval]
  -- the distance constraint at the selected arc caps `x 1`
  have hcap : ∀ (Y : Fin 2 → Fin 2 → Bool) (x : Fin 2 → ℚ), Y 0 1 = true →
      XFeas (l2 la Ms) (u2 ua Ms) 0 Y x → x 1 ≤ ua := by
    intro Y x h01 hx
    have h := hx.2.2 0 1
    rw [hx.1, h01, L01, U01] at h
    norm_num [bval] at h
    linarith
  -- the witness labels are feasible for any scenario selecting the arc
  have hfin : ∀ a : Fin 2, a = 0 ∨ a = 1 := by decide
  have hx2gen : ∀ Y : Fin 2 → Fin 2 → Bool, Y 0 1 = true →
      XFeas (l2 la Ms) (u2 ua Ms) 0 Y (x2 ua) := by
    intro Y h01
    refine ⟨X0, ?_, ?_⟩
    · intro j
      rcases hfin j with rfl | rfl
      · rw [X0]
      · rw [X1]
        exact hua
    · intro i j
      rcases hfin i with rfl | rfl <;> rcases hfin j with rfl | rfl
      · rw [X0, L00, U00]
        nlinarith [hb01 (Y 0 0)]
      · rw [X1, X0, L01, U01, h01]
        norm_num [bval]
      · rw [X0, X1, L10, U10]
        nlinarith [hb01 (Y 1 0)]
      · rw [X1, L11, U11]
        nlinarith [hb01 (Y 1 1)]
  have hY2 : YFeas (0 : Fin 2) 1 Y2 := by
    refine ⟨?_, ?_, ?_⟩
    · simp [netFlux, Fin.sum_univ_two, Y2, bval]
    · simp [netFlux, Fin.sum_univ_two, Y2, bval]
    · intro j hj0 hj1
      exfalso
      rcases hfin j with rfl | rfl
      · exact hj0 rfl
      · exact hj1 rfl
  have hx2 : XFeas (l2 la Ms) (u2 ua Ms) 0 Y2 (x2 ua) := hx2gen Y2 rfl
  have hobj2 : objective (u2 ua Ms) 1 Y2 (x2 ua) = 0 := by
    unfold objective
    rw [hsum Y2 rfl rfl, X1]
    ring
  -- every feasible assignment has objective at least 0
  have hlb : ∀ Y x, modelFeasible (l2 la Ms) (u2 ua Ms) (0 : Fin 2) 1 Y x →
      0 ≤ objective (u2 ua Ms) 1 Y x := by
    intro Y x hf
    obtain ⟨h01, h10⟩ := hflux Y hf.1
    unfold objective
    rw [hsum Y h01 h10]
    have := hcap Y x h01 hf.2
    linarith
  refine ⟨⟨⟨Y2, x2 ua, ⟨hY2, hx2⟩, hobj2⟩, ?_⟩, fun Y x h => hflux Y h.1, ?_⟩
  · rintro v ⟨Y, x, hfeas, rfl⟩
    exact hlb Y x hfeas
  · intro Y x hfeas hopt
    obtain ⟨h01, h10⟩ := hflux Y hfeas.1
    have hge := hopt.2 (x2 ua) (hx2gen Y h01)
    rw [X1] at hge
    have hle := hcap Y x h01 hopt.1
    unfold objective
    rw [hsum Y h01 h10]
    linarith

/-- Witness for claim C9, at `la = 1`, `ua = 5`, `Ms = 10000`. -/
theorem single_arc_graph_zero_regret_witness :
    IsLeast (objValues (l2 1 10000) (u2 5 10000) 0 1) 0 ∧
    (∀ Y x, modelFeasible (l2 1 10000) (u2 5 10000) (0 : Fin 2) 1 Y x →
      Y 0 1 = true ∧ Y 1 0 = false) ∧
    (∀ Y x, modelFeasible (l2 1 10000) (u2 5 10000) (0 : Fin 2) 1 Y x →
      XOpt (l2 1 10000) (u2 5 10000) 0 1 Y x →
      objective (u2 5 10000) 1 Y x = 0) :=
  single_arc_graph_zero_regret 1 5 10000 (by norm_num) (by norm_num)
    (by norm_num)

/-! ### Claim C10: graph generation -/

/-- Lower-bound generation from `RSP.ipynb`: the diagonal is zeroed first,
then the sparsification loop overwrites the entry with `M = 10000` whenever
`dummy[i][j] != 0` (the overwrite also applies to the diagonal). -/
def genL {n : ℕ} (l0 : Fin n → Fin n → ℤ) (dummy : Fin n → Fin n → Fin 10) :
    Fin n → Fin n → ℤ := fun i j =>
  if dummy i j ≠ 0 then 10000 else if i = j then 0 else l0 i j

/-- Upper-bound generation from `RSP.ipynb`, with the same structure. -/
def genU {n : ℕ} (u0 : Fin n → Fin n → ℤ) (dummy : Fin n → Fin n → Fin 10) :
    Fin n → Fin n → ℤ := fun i j =>
  if dummy i j ≠ 0 then 10000 else if i = j then 0 else u0 i j

/-- Claim C10: an off-diagonal arc is deleted (both bounds overwritten with
the sentinel `M = 10000`) exactly when its uniform draw `dummy[i][j]` over
`{0,...,9}` is non-zero, so an arc is kept with probability `1/10` - not
the 50% connectivity stated by the accompanying comment. -/
theorem arc_deletion_matches_dummy {n : ℕ} (l0 u0 : Fin n → Fin n → ℤ)
    (dummy : Fin n → Fin n → Fin 10)
    (hl : ∀ i j, 1 ≤ l0 i j ∧ l0 i j ≤ 9) :
    (∀ i j, i ≠ j →
      ((genL l0 dummy i j = 10000 ∧ genU u0 dummy i j = 10000) ↔
        dummy i j ≠ 0)) ∧
    ((Finset.univ.filter (fun d : Fin 10 => d = 0)).card : ℚ) /
      (Fintype.card (Fin 10) : ℚ) = 1 / 10 ∧
    (1 : ℚ) / 10 ≠ 1 / 2 := by
  refine ⟨?_, ?_, by norm_num⟩
  · intro i j hij
    constructor
    · rintro ⟨hg, _⟩
      by_contra hd
      unfold genL at hg
      rw [if_neg (by simp [hd]), if_neg hij] at hg
      have := (hl i j).2
      omega
    · intro hd
      constructor
      · unfold genL
        rw [if_pos hd]
      · unfold genU
        rw [if_pos hd]
  · rw [show (Finset.univ.filter (fun d : Fin 10 => d = 0)).card = 1
      from by decide]
    rw [show Fintype.card (Fin 10) = 10 from by decide]
    norm_num

/-- Witness for claim C10: a 2-node instance with constant base bounds 5
and 25, where `dummy` is zero exactly on the arc `(0, 1)`. -/
theorem arc_deletion_matches_dummy_witness :
    (∀ i j : Fin 2, i ≠ j →
      ((genL (fun _ _ => 5) (fun i j => if i = 0 ∧ j = 1 then 0 else 3) i j
          = 10000 ∧
        genU (fun _ _ => 25) (fun i j => if i = 0 ∧ j = 1 then 0 else 3) i j
          = 10000) ↔
        (fun i j : Fin 2 => if i = 0 ∧ j = 1 then (0 : Fin 10) else 3) i j
          ≠ 0)) ∧
    ((Finset.univ.filter (fun d : Fin 10 => d = 0)).card : ℚ) /
      (Fintype.card (Fin 10) : ℚ) = 1 / 10 ∧
    (1 : ℚ) / 10 ≠ 1 / 2 :=
  arc_deletion_matches_dummy (fun _ _ => 5) (fun _ _ => 25)
    (fun i j => if i = 0 ∧ j = 1 then 0 else 3)
    (fun _ _ => by norm_num)

end RSP
